import Mathlib

/-!
Verification development for the ephemeral project execution engine
(`backend/services/executor.py` and `backend/routers/execute.py`).

The Python source is shallowly embedded: pure helpers become Lean
functions, the stateful orchestration (`execute_project`, `run_command`)
becomes a trace semantics over an explicit environment describing the
outcomes of external effects (file existence, child-process exit codes and
output lines), and code that can raise an uncaught Python exception is
embedded in `Except Unit`.
-/

set_option maxHeartbeats 1000000
set_option linter.unnecessarySeqFocus false

namespace Workstation

/-! ## Basic character-list utilities (substring and path tests) -/

/-- Boolean prefix test on character lists. -/
def prefOf : List Char → List Char → Bool
  | [], _ => true
  | _ :: _, [] => false
  | a :: as, b :: bs => if a = b then prefOf as bs else false

/-- Boolean "is contiguous sublist" test: `subListOf n h` is true iff the
character list `n` occurs contiguously inside `h`.  This models Python's
`in` operator on strings. -/
def subListOf : List Char → List Char → Bool
  | n, [] => n.isEmpty
  | n, h :: t => prefOf n (h :: t) || subListOf n t

/-- Substring test on strings, modelling Python `needle in hay`. -/
def strContainsB (hay needle : String) : Bool :=
  subListOf needle.toList hay.toList

/-- Suffix test on strings, modelling Python `s.endswith(p)`. -/
def strEndsWithB (s p : String) : Bool :=
  prefOf p.toList.reverse s.toList.reverse

/-- Python whitespace, as used by `str.strip()` (ASCII range). -/
def isPySpace (c : Char) : Bool :=
  c = ' ' || c = '\t' || c = '\n' || c = '\r' || c = '\x0b' || c = '\x0c'

/-- `str.strip()`: drop leading and trailing whitespace. -/
def trimL (l : List Char) : List Char :=
  ((l.dropWhile isPySpace).reverse.dropWhile isPySpace).reverse

/-- The part of `s` before the first occurrence of the (non-empty)
separator `sep`; the whole of `s` when `sep` does not occur.  This is
`s.split(sep)[0]` in Python. -/
def cutAtL (sep : List Char) : List Char → List Char
  | [] => []
  | c :: r => if prefOf sep (c :: r) then [] else c :: cutAtL sep r

/-- Split a character list at every occurrence of the character `c`
(Python's splitting of file content into lines at newlines). -/
def splitChar (c : Char) : List Char → List (List Char)
  | [] => [[]]
  | d :: r =>
      let s := splitChar c r
      if d = c then [] :: s
      else
        match s with
        | [] => [[d]]
        | seg :: ss => (d :: seg) :: ss

/-- `sep.join(xs)` in Python. -/
def intercalateS (sep : String) : List String → String
  | [] => ""
  | [x] => x
  | x :: xs => x ++ sep ++ intercalateS sep xs

/-- `str.lower()` (ASCII model). -/
def lowerS (s : String) : String := String.mk (s.data.map Char.toLower)

/-- `str.replace(sep, repl)`: replace every (non-overlapping, leftmost)
occurrence; fuelled so that it is structural (the fuel is the input
length, and each step consumes at least one character). -/
def replaceAllL : Nat → List Char → List Char → List Char → List Char
  | 0, s, _, _ => s
  | _ + 1, [], _, _ => []
  | f + 1, c :: r, sep, repl =>
      if sep ≠ [] && prefOf sep (c :: r) then
        repl ++ replaceAllL f ((c :: r).drop sep.length) sep repl
      else c :: replaceAllL f r sep repl

/-- `str.replace` on strings. -/
def replaceS (s sep repl : String) : String :=
  String.mk (replaceAllL s.data.length s.data sep.data repl.data)

@[simp] theorem prefOf_nil (l : List Char) : prefOf [] l = true := by
  cases l <;> rfl

theorem prefOf_refl_append (n r : List Char) : prefOf n (n ++ r) = true := by
  induction n with
  | nil => simp
  | cons a as ih => simp [prefOf, ih]

theorem subListOf_here (n r : List Char) : subListOf n (n ++ r) = true := by
  cases n with
  | nil => cases r <;> simp [subListOf, List.isEmpty]
  | cons a as =>
      simp only [List.cons_append, subListOf, Bool.or_eq_true]
      exact Or.inl (prefOf_refl_append (a :: as) r)

theorem subListOf_cons_of (n t : List Char) (c : Char)
    (h : subListOf n t = true) : subListOf n (c :: t) = true := by
  simp [subListOf, h]

theorem subListOf_append_left (n a b : List Char)
    (h : subListOf n b = true) : subListOf n (a ++ b) = true := by
  induction a with
  | nil => simpa using h
  | cons c cs ih => simpa [List.cons_append] using subListOf_cons_of n (cs ++ b) c ih

/-- The central fact used to show a command string mentions its port:
a list occurs inside `a ++ n ++ b`. -/
theorem subListOf_append_mid (a n b : List Char) :
    subListOf n (a ++ (n ++ b)) = true :=
  subListOf_append_left n a (n ++ b) (subListOf_here n b)

theorem String.data_append' (a b : String) : (a ++ b).data = a.data ++ b.data := rfl

theorem strContainsB_append_mid (a n b : String) :
    strContainsB (a ++ n ++ b) n = true := by
  have h : (a ++ n ++ b).toList = a.toList ++ (n.toList ++ b.toList) := by
    show (a ++ n ++ b).data = a.data ++ (n.data ++ b.data)
    simp [String.data_append']
  simp only [strContainsB, h]
  exact subListOf_append_mid a.toList n.toList b.toList

/-! ## JSON values

`json.loads` results are modelled by `Json`; the parse function itself is a
parameter (`String → Option Json`, `none` = `json.JSONDecodeError`), since
the `json` module is external library code.  An `obj` models a Python
`dict` (whose keys, coming from `json.loads`, are distinct). -/

inductive Json where
  | null : Json
  | bool (b : Bool) : Json
  | num (n : Int) : Json
  | str (s : String) : Json
  | arr (xs : List Json) : Json
  | obj (kvs : List (String × Json)) : Json
deriving BEq, Inhabited

/-- Keys of a JSON object; `.error ()` models the `TypeError` raised by
`{**x}` when `x` is not a mapping, and the `AttributeError` from `.keys()`
on a non-dict.  Only a dict succeeds. -/
def objKeys : Json → Except Unit (List String)
  | .obj kvs => .ok (kvs.map Prod.fst)
  | _ => .error ()

/-- `j.get(key, default)` in Python: raises `AttributeError` unless `j` is
a dict, else returns the stored value or the default. -/
def jsonGetD (j : Json) (key : String) (dflt : Json) : Except Unit Json :=
  match j with
  | .obj kvs =>
      match kvs.find? (fun kv => kv.1 = key) with
      | some kv => .ok kv.2
      | none => .ok dflt
  | _ => .error ()

/-- Python's `s in j` for a string `s` and a `json.loads` value `j`:
key membership for dicts, element membership for lists, substring test for
strings, `TypeError` otherwise. -/
def pyIn (s : String) (j : Json) : Except Unit Bool :=
  match j with
  | .obj kvs => .ok (kvs.any (fun kv => kv.1 = s))
  | .arr xs => .ok (xs.any (fun x => x == Json.str s))
  | .str t => .ok (strContainsB t s)
  | _ => .error ()

/-! ## File tree and project-type detection (`detect_project_type`) -/

/-- One node of the submitted file tree (the pydantic `FileNode`):
a name, an optional content, and an optional child list.  A node is a
directory exactly when `children` is not `None` (even if empty). -/
inductive FileNode where
  | mk (name : String) (content : Option String) (children : Option (List FileNode)) : FileNode

/-- The state accumulated by `collect_files`: the set of leaf file names,
and the last captured truthy contents of `package.json` /
`package-lock.json` in traversal order. -/
structure CollectSt where
  names : List String
  pkgJson : Option String
  pkgLock : Option String
deriving BEq

def emptySt : CollectSt := ⟨[], none, none⟩

/-- Sequencing of collection states: `b` is collected after `a`, so `b`'s
captured manifest contents override `a`'s (Python reassigns the
`nonlocal` variables on each truthy hit). -/
def combineSt (a b : CollectSt) : CollectSt :=
  ⟨a.names ++ b.names, b.pkgJson.orElse (fun _ => a.pkgJson),
    b.pkgLock.orElse (fun _ => a.pkgLock)⟩

/-- Python truthiness of `node.get("content")`: `None` and `""` are falsy. -/
def truthyContent : Option String → Option String
  | none => none
  | some s => if s = "" then none else some s

/-- Collection state contributed by a single leaf. -/
def leafSt (name : String) (content : Option String) : CollectSt :=
  ⟨[name],
    if name = "package.json" then truthyContent content else none,
    if name = "package-lock.json" then truthyContent content else none⟩

mutual

/-- `collect_files` on one node: a leaf records its name and possibly a
manifest content; a directory only recurses into its children. -/
def collectNode : FileNode → CollectSt
  | .mk name content none => leafSt name content
  | .mk _ _ (some cs) => collectList cs

/-- `collect_files` on a node list, in order. -/
def collectList : List FileNode → CollectSt
  | [] => emptySt
  | n :: rest => combineSt (collectNode n) (collectList rest)

end

/-- The closed project-type enum. -/
inductive ProjectType where
  | NEXTJS | REACT_CRA | VITE | NODEJS | PYTHON | SIMPLE_WEB | UNKNOWN
deriving BEq, DecidableEq

/-- The `.value` strings of the Python enum. -/
def ProjectType.value : ProjectType → String
  | .NEXTJS => "nextjs"
  | .REACT_CRA => "react-cra"
  | .VITE => "vite"
  | .NODEJS => "nodejs"
  | .PYTHON => "python"
  | .SIMPLE_WEB => "simple-web"
  | .UNKNOWN => "unknown"

/-- The trailing rules of `detect_project_type`, on the collected leaf
names: `requirements.txt`, any `.py` file, `index.html`, else unknown. -/
def fileTypeRules (names : List String) : ProjectType :=
  if names.contains "requirements.txt" then .PYTHON
  else if names.any (fun f => strEndsWithB f ".py") then .PYTHON
  else if names.contains "index.html" then .SIMPLE_WEB
  else .UNKNOWN

/-- Key list of `{**pkg.get("dependencies", {}), **pkg.get("devDependencies", {})}`:
both values must be mappings; the merged dict's key set is the union. -/
def mergedDepKeys (pkg : Json) : Except Unit (List String) := do
  let d1 ← jsonGetD pkg "dependencies" (Json.obj [])
  let d2 ← jsonGetD pkg "devDependencies" (Json.obj [])
  let k1 ← objKeys d1
  let k2 ← objKeys d2
  pure (k1 ++ k2)

/-- The `package.json` branch: merge `dependencies` and `devDependencies`
(`{**a, **b}` — both must be mappings) and test the three framework keys in
priority order. -/
def pkgBranch (pkg : Json) : Except Unit ProjectType := do
  let deps ← mergedDepKeys pkg
  if deps.contains "next" then pure .NEXTJS
  else if deps.contains "react-scripts" then pure .REACT_CRA
  else if deps.contains "vite" then pure .VITE
  else pure .NODEJS

/-- The `package-lock.json` fallback branch. -/
def lockBranch (lock : Json) : Except Unit ProjectType := do
  let packages ← jsonGetD lock "packages" (Json.obj [])
  let rootPkg ← jsonGetD packages "" (Json.obj [])
  let rootDeps ← jsonGetD rootPkg "dependencies" (Json.obj [])
  let b1 ← pyIn "next" rootDeps
  if b1 then pure .NEXTJS else
  let b2 ← pyIn "react-scripts" rootDeps
  if b2 then pure .REACT_CRA else
  let b3 ← pyIn "vite" rootDeps
  if b3 then pure .VITE else do
  let ks ← objKeys packages
  if ks.any (fun k => strContainsB k "node_modules/next") then pure .NEXTJS
  else if ks.any (fun k => strContainsB k "node_modules/react-scripts") then pure .REACT_CRA
  else if ks.any (fun k => strContainsB k "node_modules/vite") then pure .VITE
  else pure .NODEJS

/-- The rules applied when the `package.json` branch did not return:
try `package-lock.json`, then the file-name rules.  A parse failure
(`json.JSONDecodeError`) falls through; any other exception propagates. -/
def afterPkg (parse : String → Option Json) (st : CollectSt) : Except Unit ProjectType :=
  match st.pkgLock with
  | some c =>
      match parse c with
      | some lock => lockBranch lock
      | none => .ok (fileTypeRules st.names)
  | none => .ok (fileTypeRules st.names)

/-- The classifier's branch structure, as a function of the collected
state. -/
def detectFromSt (parse : String → Option Json) (st : CollectSt) :
    Except Unit ProjectType :=
  match st.pkgJson with
  | some c =>
      match parse c with
      | some pkg => pkgBranch pkg
      | none => afterPkg parse st
  | none => afterPkg parse st

/-- `detect_project_type`, as a function of the (external) JSON parse
function and the submitted tree.  `.error ()` models an uncaught Python
exception escaping the classifier. -/
def detect_project_type (parse : String → Option Json) (files : List FileNode) :
    Except Unit ProjectType :=
  detectFromSt parse (collectList files)

/-- A concrete stand-in for `json.loads` built from a finite table, used to
instantiate the abstract parse function on concrete inputs. -/
def parseTable (tbl : List (String × Json)) : String → Option Json :=
  fun s => (tbl.find? (fun kv => kv.1 = s)).map Prod.snd

/-! ### Collection-state algebra -/

@[simp] theorem orElse_none_right (x : Option String) :
    x.orElse (fun _ => none) = x := by cases x <;> rfl

theorem combineSt_empty_left (b : CollectSt) : combineSt emptySt b = b := by
  cases b with
  | mk ns pj pl => simp [combineSt, emptySt]

theorem combineSt_assoc (a b c : CollectSt) :
    combineSt (combineSt a b) c = combineSt a (combineSt b c) := by
  cases a with
  | mk an apj apl =>
    cases b with
    | mk bn bpj bpl =>
      cases c with
      | mk cn cpj cpl =>
        simp only [combineSt, CollectSt.mk.injEq, List.append_assoc, true_and]
        constructor <;> cases cpj <;> cases cpl <;> cases bpj <;> cases bpl <;> rfl

theorem collectList_append (a b : List FileNode) :
    collectList (a ++ b) = combineSt (collectList a) (collectList b) := by
  induction a with
  | nil => simp [collectList, combineSt_empty_left]
  | cons n rest ih =>
      have h1 : collectList ((n :: rest) ++ b) =
          combineSt (collectNode n) (collectList (rest ++ b)) := rfl
      have h2 : collectList (n :: rest) =
          combineSt (collectNode n) (collectList rest) := rfl
      rw [h1, ih, h2, combineSt_assoc]

/-- Adding a leaf name that is none of the three trigger names does not
change the trailing file-name rules. -/
theorem fileTypeRules_cons_irrelevant (nm : String) (ns : List String)
    (h1 : ("requirements.txt" == nm) = false) (h2 : strEndsWithB nm ".py" = false)
    (h3 : ("index.html" == nm) = false) :
    fileTypeRules (nm :: ns) = fileTypeRules ns := by
  simp only [fileTypeRules, List.contains_cons, List.any_cons, h1, h2, h3,
    Bool.false_or]

/-- The classifier ignores an extra collected leaf name that is none of
the three trigger names. -/
theorem detectFromSt_cons_name (parse : String → Option Json) (nm : String)
    (ns : List String) (pj pl : Option String)
    (h1 : ("requirements.txt" == nm) = false) (h2 : strEndsWithB nm ".py" = false)
    (h3 : ("index.html" == nm) = false) :
    detectFromSt parse ⟨nm :: ns, pj, pl⟩ = detectFromSt parse ⟨ns, pj, pl⟩ := by
  have hf := fileTypeRules_cons_irrelevant nm ns h1 h2 h3
  cases pj with
  | none =>
      cases pl with
      | none => simp [detectFromSt, afterPkg, hf]
      | some c => cases parse c <;> simp [detectFromSt, afterPkg, hf]
  | some c =>
      cases hp : parse c with
      | some pkg => simp [detectFromSt, hp]
      | none =>
          cases pl with
          | none => simp [detectFromSt, afterPkg, hp, hf]
          | some c2 => cases parse c2 <;> simp [detectFromSt, afterPkg, hp, hf]

/-- Claim C3 theorem.  For every tree whose (captured) `package.json`
content parses as JSON and whose merged `dependencies`/`devDependencies`
key extraction succeeds, classification returns exactly the
`next` → `react-scripts` → `vite` → `nodejs` precedence over the merged
keys. -/
theorem detect_pkg_json_precedence (parse : String → Option Json)
    (files : List FileNode) (c : String) (pkg : Json) (names : List String)
    (hc : (collectList files).pkgJson = some c)
    (hp : parse c = some pkg)
    (hd : mergedDepKeys pkg = .ok names) :
    detect_project_type parse files =
      .ok (if names.contains "next" then ProjectType.NEXTJS
           else if names.contains "react-scripts" then ProjectType.REACT_CRA
           else if names.contains "vite" then ProjectType.VITE
           else ProjectType.NODEJS) := by
  unfold detect_project_type detectFromSt
  rw [hc]
  show (match parse c with
        | some pkg => pkgBranch pkg
        | none => afterPkg parse (collectList files)) = _
  rw [hp]
  show pkgBranch pkg = _
  unfold pkgBranch
  rw [hd]
  show (if names.contains "next" then pure ProjectType.NEXTJS
        else if names.contains "react-scripts" then pure ProjectType.REACT_CRA
        else if names.contains "vite" then pure ProjectType.VITE
        else pure ProjectType.NODEJS) = _
  split_ifs <;> rfl

/-- Claim C4 amended theorem.  Whenever a captured manifest content fails
to parse (`json.JSONDecodeError`), classification of the tree equals
classification with exactly that manifest absent — the other manifest and
the file-name rules are consulted unchanged: a malformed `package.json`
falls through to the `package-lock.json` rule, a malformed
`package-lock.json` falls through to the file-name rules. -/
theorem detect_malformed_manifests_fall_through (parse : String → Option Json)
    (files : List FileNode) :
    (∀ c, (collectList files).pkgJson = some c → parse c = none →
      detect_project_type parse files =
        detectFromSt parse
          ⟨(collectList files).names, none, (collectList files).pkgLock⟩) ∧
    (∀ c, (collectList files).pkgLock = some c → parse c = none →
      detect_project_type parse files =
        detectFromSt parse
          ⟨(collectList files).names, (collectList files).pkgJson, none⟩) := by
  have H : ∀ st : CollectSt,
      (∀ c, st.pkgJson = some c → parse c = none →
        detectFromSt parse st = detectFromSt parse ⟨st.names, none, st.pkgLock⟩) ∧
      (∀ c, st.pkgLock = some c → parse c = none →
        detectFromSt parse st = detectFromSt parse ⟨st.names, st.pkgJson, none⟩) := by
    intro st
    rcases st with ⟨ns, pj, pl⟩
    constructor
    · intro c hjc hpc
      have hjc' : pj = some c := hjc
      subst hjc'
      simp [detectFromSt, afterPkg, hpc]
    · intro c hlc hpc
      have hlc' : pl = some c := hlc
      subst hlc'
      cases pj with
      | none => simp [detectFromSt, afterPkg, hpc]
      | some cj =>
          cases hpj : parse cj with
          | none => simp [detectFromSt, afterPkg, hpc, hpj]
          | some pkg => simp [detectFromSt, hpj]
  exact H (collectList files)

/-- Claim C4 counterexample.  On a tree whose `package.json` content is
the valid JSON text `5`, `json.loads` succeeds with a non-dict, and
`pkg.get("dependencies", {})` raises `AttributeError`, which is not
caught: classification raises on this input tree, so it is not true that
classification never raises an error on any input tree. -/
theorem detect_raises_on_non_object_manifest :
    detect_project_type (parseTable [("5", Json.num 5)])
      [FileNode.mk "package.json" (some "5") none] = .error () := rfl

/-- Claim C4 witness.  A tree with a malformed `package.json` and a
`requirements.txt` classifies exactly as if the `package.json` were
absent, which here means falling through to python. -/
theorem detect_malformed_witness :
    detect_project_type (parseTable [])
      [FileNode.mk "package.json" (some "not json") none,
       FileNode.mk "requirements.txt" (some "flask") none] =
      detectFromSt (parseTable [])
        ⟨["package.json", "requirements.txt"], none, none⟩ ∧
    detectFromSt (parseTable [])
      ⟨["package.json", "requirements.txt"], none, none⟩ =
      .ok ProjectType.PYTHON := by
  constructor
  · exact (detect_malformed_manifests_fall_through (parseTable [])
      [FileNode.mk "package.json" (some "not json") none,
       FileNode.mk "requirements.txt" (some "flask") none]).1 "not json" rfl rfl
  · rfl

/-- Claim C3 witness: a `package.json` declaring both `react-scripts` and
`next` (across the two dependency maps) classifies as nextjs. -/
theorem detect_pkg_json_witness :
    detect_project_type
      (parseTable [("pkgtext",
        Json.obj [("dependencies", Json.obj [("react-scripts", Json.str "5")]),
                  ("devDependencies", Json.obj [("next", Json.str "13")])])])
      [FileNode.mk "package.json" (some "pkgtext") none] = .ok ProjectType.NEXTJS := by
  have h := detect_pkg_json_precedence
    (parseTable [("pkgtext",
      Json.obj [("dependencies", Json.obj [("react-scripts", Json.str "5")]),
                ("devDependencies", Json.obj [("next", Json.str "13")])])])
    [FileNode.mk "package.json" (some "pkgtext") none]
    "pkgtext"
    (Json.obj [("dependencies", Json.obj [("react-scripts", Json.str "5")]),
               ("devDependencies", Json.obj [("next", Json.str "13")])])
    ["react-scripts", "next"] rfl rfl rfl
  rw [h]
  rfl

/-- Claim C10 theorem.  A `package.json` or `package-lock.json` node with
absent or empty content, or appearing as a directory node, is classified
exactly as if the node did not exist (for a directory, as if its children
stood in its place): classification falls through to the remaining rules. -/
theorem detect_degenerate_manifest_nodes (parse : String → Option Json)
    (nm : String) (rest : List FileNode) (c : Option String) (cs : List FileNode)
    (hnm : nm = "package.json" ∨ nm = "package-lock.json") :
    detect_project_type parse (FileNode.mk nm none none :: rest) =
        detect_project_type parse rest
    ∧ detect_project_type parse (FileNode.mk nm (some "") none :: rest) =
        detect_project_type parse rest
    ∧ detect_project_type parse (FileNode.mk nm c (some cs) :: rest) =
        detect_project_type parse (cs ++ rest) := by
  have hname : ("requirements.txt" == nm) = false ∧ strEndsWithB nm ".py" = false ∧
      ("index.html" == nm) = false := by
    rcases hnm with h | h <;> subst h <;> exact ⟨rfl, rfl, rfl⟩
  refine ⟨?_, ?_, ?_⟩
  · show detectFromSt parse (collectList (FileNode.mk nm none none :: rest)) =
      detectFromSt parse (collectList rest)
    have hleaf : collectList (FileNode.mk nm none none :: rest) =
        combineSt ⟨[nm], none, none⟩ (collectList rest) := by
      rw [collectList]
      congr 1
      simp [collectNode, leafSt, truthyContent]
    rw [hleaf]
    rcases collectList rest with ⟨ns, pj, pl⟩
    have hcomb : combineSt ⟨[nm], none, none⟩ ⟨ns, pj, pl⟩ = ⟨nm :: ns, pj, pl⟩ := by
      simp [combineSt]
    rw [hcomb]
    exact detectFromSt_cons_name parse nm ns pj pl hname.1 hname.2.1 hname.2.2
  · show detectFromSt parse (collectList (FileNode.mk nm (some "") none :: rest)) =
      detectFromSt parse (collectList rest)
    have hleaf : collectList (FileNode.mk nm (some "") none :: rest) =
        combineSt ⟨[nm], none, none⟩ (collectList rest) := by
      rw [collectList]
      congr 1
      simp [collectNode, leafSt, truthyContent]
    rw [hleaf]
    rcases collectList rest with ⟨ns, pj, pl⟩
    have hcomb : combineSt ⟨[nm], none, none⟩ ⟨ns, pj, pl⟩ = ⟨nm :: ns, pj, pl⟩ := by
      simp [combineSt]
    rw [hcomb]
    exact detectFromSt_cons_name parse nm ns pj pl hname.1 hname.2.1 hname.2.2
  · show detectFromSt parse (collectList (FileNode.mk nm c (some cs) :: rest)) =
      detectFromSt parse (collectList (cs ++ rest))
    rw [collectList,
      show collectNode (FileNode.mk nm c (some cs)) = collectList cs from rfl,
      ← collectList_append]

/-- Claim C10 witness: instantiation at a bare `package.json` leaf with
absent content next to an `index.html` leaf. -/
theorem detect_degenerate_manifest_witness :
    detect_project_type (parseTable [])
        (FileNode.mk "package.json" none none ::
          [FileNode.mk "index.html" (some "<html>") none]) =
      detect_project_type (parseTable []) [FileNode.mk "index.html" (some "<html>") none] :=
  (detect_degenerate_manifest_nodes (parseTable []) "package.json"
    [FileNode.mk "index.html" (some "<html>") none] none [] (Or.inl rfl)).1

/-! ## Command planning (`get_run_commands`) and the execution pipeline
(`execute_project` / `run_command`)

`execute_project` is an async pipeline whose observable behaviour is the
sequence of items put on the session's output queue and the child
processes it spawns.  It is embedded as a trace semantics: an `ExecEnv`
fixes the outcome of every external effect (file-existence checks, the
result of `patch_nodejs_port`, each command's exit code and output lines),
and `execute_project` returns the list of emitted events.  The embedding
covers the non-exceptional executions in which no concurrent stop request
arrives (`should_stop` stays false) and each spawned subprocess starts and
terminates. -/

/-- An observable event of the pipeline: a text chunk put on the output
queue, a child process being spawned, or the `None` end-of-stream
marker. -/
inductive Event where
  | msg (s : String) : Event
  | spawn (cmd : String) : Event
  | endMark : Event
deriving BEq, DecidableEq

/-- The commands spawned in a trace. -/
def spawnsOf (t : List Event) : List String :=
  t.filterMap (fun e => match e with | .spawn c => some c | _ => none)

/-- The outcome of every external effect consulted by the pipeline. -/
structure ExecEnv where
  /-- `os.path.exists(project_dir/node_modules)` -/
  nodeModulesExists : Bool
  /-- `os.path.exists(project_dir/package.json)` -/
  packageJsonExists : Bool
  /-- `os.path.exists(project_dir/requirements.txt)` -/
  reqExists : Bool
  /-- contents of `requirements.txt` -/
  reqContent : String
  /-- result of `patch_nodejs_port(project_dir, port)` -/
  patchedFiles : List String
  /-- `os.path.exists(project_dir/<entry file>)` -/
  entryExists : String → Bool
  /-- `Path(project_dir).glob("*.py")` file names, in glob order -/
  pyFiles : List String
  /-- `Path(project_dir, "main.py").exists()` -/
  mainPyExists : Bool
  /-- exit code of each spawned shell command -/
  exitCode : String → Int
  /-- decoded output lines streamed by each spawned shell command -/
  cmdOutput : String → List String

/-- `get_run_commands`: the planned (install, run) pair per project type,
with the dynamic port substituted.  `none`/`""` model Python's
`commands.get(project_type, (None, ""))`. -/
def get_run_commands (projectType : ProjectType) (port : Nat) (useNodemon : Bool) :
    Option String × String :=
  let nodejsRun := if useNodemon
    then "set PORT=" ++ toString port ++ " && npx nodemon server.js"
    else "set PORT=" ++ toString port ++ " && npm start"
  match projectType with
  | .NEXTJS => (some "npm install", "npm run dev -- -p " ++ toString port)
  | .REACT_CRA => (some "npm install", "set PORT=" ++ toString port ++ " && npm start")
  | .VITE => (some "npm install", "npm run dev -- --port " ++ toString port)
  | .NODEJS => (some "npm install", nodejsRun)
  | .PYTHON => (none, "python main.py")
  | _ => (none, "")

/-- `run_command`: announce the command, spawn it, stream its output,
report the exit code, and (only when asked) emit the end-of-stream marker.
Returns the trace together with the exit code. -/
def run_command (env : ExecEnv) (cmd : String) (signalEnd : Bool) :
    List Event × Int :=
  let ec := env.exitCode cmd
  (Event.msg ("$ " ++ cmd ++ "\n") ::
    Event.spawn cmd ::
    (env.cmdOutput cmd).map Event.msg ++
    [Event.msg ((if ec = 0 then "\n✓ Process exited with code "
                 else "\n✗ Process exited with code ") ++ toString ec ++ "\n")] ++
    (if signalEnd then [Event.endMark] else []),
   ec)

/-- The entry-file scan for Node.js when nothing was patched: the first
existing conventional entry file, defaulting to `server.js`. -/
def nodeEntryFallback (env : ExecEnv) : String :=
  if env.entryExists "server.js" then "server.js"
  else if env.entryExists "app.js" then "app.js"
  else if env.entryExists "index.js" then "index.js"
  else if env.entryExists "main.js" then "main.js"
  else "server.js"

/-- Strip the version specifiers from one requirement line
(`line.split("==")[0].split(">=")[0].split("<=")[0].split("~=")[0].split("<")[0].split(">")[0].strip()`). -/
def stripPinL (l : List Char) : List Char :=
  trimL (cutAtL ['>']
    (cutAtL ['<'] (cutAtL ['~', '='] (cutAtL ['<', '=']
      (cutAtL ['>', '='] (cutAtL ['=', '='] l))))))

/-- The package names collected for the pinless retry: each
stripped requirement line that is non-empty, not a comment, and leaves a
non-empty name after pin removal. -/
def strippedPackages (req : String) : List String :=
  ((splitChar '\n' req.data).map trimL).filterMap (fun line =>
    if line ≠ [] ∧ ¬ prefOf ['#'] line then
      let p := stripPinL line
      if p ≠ [] then some (String.mk p) else none
    else none)

/-- The python run-command override: framework markers are looked up
case-insensitively in the requirements content, and the entry module is
`main.py` when present, else the first globbed python file; with no
globbed python file the planner's default run command is kept. -/
def pythonRunCmd (env : ExecEnv) (port : Nat) (runCmd0 : String) : String :=
  let lower := lowerS env.reqContent
  let isFastapi := env.reqExists &&
    (strContainsB lower "fastapi" || strContainsB lower "uvicorn")
  let isFlask := env.reqExists && strContainsB lower "flask"
  match env.pyFiles with
  | [] => runCmd0
  | f0 :: _ =>
    let mainFile := if env.mainPyExists then "main.py" else f0
    if isFastapi then
      "uvicorn " ++ (replaceS mainFile ".py" "") ++
        ":app --reload --host 0.0.0.0 --port " ++ toString port
    else if isFlask then
      "set FLASK_APP=" ++ mainFile ++ " && set FLASK_DEBUG=1 && flask run --host=0.0.0.0 --port=" ++
        toString port
    else
      "set PORT=" ++ toString port ++ " && python " ++ mainFile

/-- The Node.js patch-and-rebuild step: events emitted plus the rebuilt
run command (nodemon against the first patched file, else the first
existing entry file). -/
def nodejsPhase (env : ExecEnv) (port : Nat) : List Event × String :=
  let (pEvents, mainJs) :=
    match env.patchedFiles with
    | [] => (([] : List Event), nodeEntryFallback env)
    | p0 :: _ =>
        ([Event.msg ("⚙ Patched port in: " ++
          intercalateS ", " env.patchedFiles ++ "\n\n")], p0)
  (pEvents ++
    [Event.msg ("⚙ Using nodemon for hot reload (entry: " ++ mainJs ++ ")\n\n")],
   "set PORT=" ++ toString port ++ " && npx nodemon " ++ mainJs)

/-- The install step: skipped when `node_modules` exists; warned and
skipped when no `package.json` exists; otherwise run, aborting the
pipeline (second component `true`) on a non-zero exit. -/
def installPhase (env : ExecEnv) (installCmd : Option String) : List Event × Bool :=
  match installCmd with
  | none => ([], false)
  | some ic =>
      if ic = "" then ([], false)
      else if env.nodeModulesExists then ([], false)
      else if ¬ env.packageJsonExists then
        ([Event.msg "⚠ No package.json found. Skipping npm install.\n"], false)
      else
        let (evs, ec) := run_command env ic false
        if ec ≠ 0 then (evs ++ [Event.endMark], true) else (evs, false)

/-- The python install sub-pipeline: install from the requirements
manifest; on failure retry once with the pin-stripped package list;
abort (second component `true`) when the retry fails or nothing remains
to install. -/
def pythonInstallPhase (env : ExecEnv) : List Event × Bool :=
  if env.reqExists then
    let (evs1, ec1) := run_command env "pip install -r requirements.txt" false
    if ec1 ≠ 0 then
      let warn := Event.msg "\n⚠ Pinned versions failed. Trying without version constraints...\n\n"
      let pkgs := strippedPackages env.reqContent
      if pkgs ≠ [] then
        let cmd2 := "pip install " ++ intercalateS " " pkgs
        let (evs2, ec2) := run_command env cmd2 false
        if ec2 ≠ 0 then (evs1 ++ [warn] ++ evs2 ++ [Event.endMark], true)
        else (evs1 ++ [warn] ++ evs2, false)
      else (evs1 ++ [warn, Event.endMark], true)
    else (evs1, false)
  else ([], false)

/-- `execute_project`: the full pipeline trace for a session of the given
project type and allocated port, under environment `env`. -/
def execute_project (env : ExecEnv) (pt : ProjectType) (port : Nat) : List Event :=
  match pt with
  | .UNKNOWN => [Event.msg "✗ Unknown project type. Cannot run.\n", Event.endMark]
  | .SIMPLE_WEB => [Event.msg "✓ Simple web project detected. Use browser preview.\n", Event.endMark]
  | _ =>
    let useNodemon := pt = ProjectType.NODEJS
    let (installCmd, runCmd0) := get_run_commands pt port useNodemon
    let header := [Event.msg ("Detected project type: " ++ pt.value ++ "\n"),
                   Event.msg ("Dev server will run on port: " ++ toString port ++ "\n\n")]
    let (nodeEvents, runCmd1) :=
      if pt = ProjectType.NODEJS then nodejsPhase env port else ([], runCmd0)
    let (installEvents, installAborts) := installPhase env installCmd
    if installAborts then header ++ nodeEvents ++ installEvents
    else
      let (pyEvents, pyAborts) :=
        if pt = ProjectType.PYTHON then pythonInstallPhase env else ([], false)
      if pyAborts then header ++ nodeEvents ++ installEvents ++ pyEvents
      else
        let runCmd := if pt = ProjectType.PYTHON then pythonRunCmd env port runCmd1 else runCmd1
        header ++ nodeEvents ++ installEvents ++ pyEvents ++ (run_command env runCmd true).1

/-! ### Trace lemmas -/

@[simp] theorem spawnsOf_nil : spawnsOf [] = [] := rfl

@[simp] theorem spawnsOf_cons_msg (s : String) (t : List Event) :
    spawnsOf (Event.msg s :: t) = spawnsOf t := rfl

@[simp] theorem spawnsOf_cons_spawn (c : String) (t : List Event) :
    spawnsOf (Event.spawn c :: t) = c :: spawnsOf t := rfl

@[simp] theorem spawnsOf_cons_end (t : List Event) :
    spawnsOf (Event.endMark :: t) = spawnsOf t := rfl

@[simp] theorem spawnsOf_append (a b : List Event) :
    spawnsOf (a ++ b) = spawnsOf a ++ spawnsOf b := by
  simp [spawnsOf, List.filterMap_append]

@[simp] theorem spawnsOf_map_msg (xs : List String) :
    spawnsOf (xs.map Event.msg) = [] := by
  induction xs with
  | nil => rfl
  | cons x r ih => simp [ih]

theorem spawnsOf_run_command (env : ExecEnv) (c : String) (b : Bool) :
    spawnsOf (run_command env c b).1 = [c] := by
  cases b <;> simp [run_command]

theorem noEnd_run_command (env : ExecEnv) (c : String) :
    Event.endMark ∉ (run_command env c false).1 := by
  simp [run_command]

theorem spawnsOf_nodejsPhase (env : ExecEnv) (port : Nat) :
    spawnsOf (nodejsPhase env port).1 = [] := by
  cases h : env.patchedFiles <;> simp [nodejsPhase, h]

theorem noEnd_nodejsPhase (env : ExecEnv) (port : Nat) :
    Event.endMark ∉ (nodejsPhase env port).1 := by
  cases h : env.patchedFiles <;> simp [nodejsPhase, h]

theorem installPhase_npm_fail (env : ExecEnv)
    (hnm : env.nodeModulesExists = false) (hpj : env.packageJsonExists = true)
    (hec : env.exitCode "npm install" ≠ 0) :
    installPhase env (some "npm install") =
      ((run_command env "npm install" false).1 ++ [Event.endMark], true) := by
  simp [installPhase, hnm, hpj, run_command, hec]

/-- Claim C1 theorem.  For every session of a type whose plan carries an
install command (the four node-family types), if the install step is
attempted (no `node_modules`, a `package.json` present) and the install
process exits non-zero, the emitted trace ends in the end-of-stream
marker (emitted exactly once, at the end), and the only process ever
spawned is the install command — in particular the run command is never
executed and none of its output can appear. -/
theorem exec_install_fail (env : ExecEnv) (pt : ProjectType) (port : Nat)
    (hpt : pt = .NEXTJS ∨ pt = .REACT_CRA ∨ pt = .VITE ∨ pt = .NODEJS)
    (hnm : env.nodeModulesExists = false)
    (hpj : env.packageJsonExists = true)
    (hec : env.exitCode "npm install" ≠ 0) :
    ∃ pre, execute_project env pt port = pre ++ [Event.endMark]
      ∧ Event.endMark ∉ pre
      ∧ spawnsOf (execute_project env pt port) = ["npm install"] := by
  have hip := installPhase_npm_fail env hnm hpj hec
  have hrc := spawnsOf_run_command env "npm install" false
  have hne := noEnd_run_command env "npm install"
  rcases hpt with h | h | h | h <;> subst h
  · refine ⟨[Event.msg ("Detected project type: " ++ ProjectType.NEXTJS.value ++ "\n"),
      Event.msg ("Dev server will run on port: " ++ toString port ++ "\n\n")] ++
      (run_command env "npm install" false).1, ?_, ?_, ?_⟩ <;>
      simp [execute_project, get_run_commands, hip, hrc, hne]
  · refine ⟨[Event.msg ("Detected project type: " ++ ProjectType.REACT_CRA.value ++ "\n"),
      Event.msg ("Dev server will run on port: " ++ toString port ++ "\n\n")] ++
      (run_command env "npm install" false).1, ?_, ?_, ?_⟩ <;>
      simp [execute_project, get_run_commands, hip, hrc, hne]
  · refine ⟨[Event.msg ("Detected project type: " ++ ProjectType.VITE.value ++ "\n"),
      Event.msg ("Dev server will run on port: " ++ toString port ++ "\n\n")] ++
      (run_command env "npm install" false).1, ?_, ?_, ?_⟩ <;>
      simp [execute_project, get_run_commands, hip, hrc, hne]
  · refine ⟨[Event.msg ("Detected project type: " ++ ProjectType.NODEJS.value ++ "\n"),
      Event.msg ("Dev server will run on port: " ++ toString port ++ "\n\n")] ++
      (nodejsPhase env port).1 ++
      (run_command env "npm install" false).1, ?_, ?_, ?_⟩ <;>
      simp [execute_project, get_run_commands, hip, hrc, hne,
        spawnsOf_nodejsPhase, noEnd_nodejsPhase]

/-- A concrete environment in which every spawned command fails with exit
code 1. -/
def envAllFail : ExecEnv :=
  ⟨false, true, true, "flask==1.0\n", [], fun _ => false, ["main.py"], true,
    fun _ => 1, fun _ => []⟩

/-- A concrete environment whose requirements manifest holds only a
comment line, so pin-stripping collects no package names; every spawned
command fails with exit code 1. -/
def envEmptyStrip : ExecEnv :=
  ⟨false, true, true, "# pinned\n", [], fun _ => false, ["main.py"], true,
    fun _ => 1, fun _ => []⟩

/-- Claim C1 witness: the theorem instantiated for a nextjs session whose
`npm install` exits 1. -/
theorem exec_install_fail_witness :
    ∃ pre, execute_project envAllFail ProjectType.NEXTJS 4001 = pre ++ [Event.endMark]
      ∧ Event.endMark ∉ pre
      ∧ spawnsOf (execute_project envAllFail ProjectType.NEXTJS 4001) = ["npm install"] :=
  exec_install_fail envAllFail ProjectType.NEXTJS 4001 (Or.inl rfl) rfl rfl (by decide)

/-- Claim C2 theorem.  For an unknown or simple-web session, executing the
project emits exactly one informational message followed by the
end-of-stream marker, and spawns no process. -/
theorem exec_unknown_simple_web (env : ExecEnv) (port : Nat) :
    execute_project env ProjectType.UNKNOWN port =
        [Event.msg "✗ Unknown project type. Cannot run.\n", Event.endMark]
    ∧ execute_project env ProjectType.SIMPLE_WEB port =
        [Event.msg "✓ Simple web project detected. Use browser preview.\n", Event.endMark]
    ∧ spawnsOf (execute_project env ProjectType.UNKNOWN port) = []
    ∧ spawnsOf (execute_project env ProjectType.SIMPLE_WEB port) = [] :=
  ⟨rfl, rfl, rfl, rfl⟩

theorem pythonInstallPhase_both_fail (env : ExecEnv)
    (hreq : env.reqExists = true)
    (h1 : env.exitCode "pip install -r requirements.txt" ≠ 0)
    (hpk : strippedPackages env.reqContent ≠ [])
    (h2 : env.exitCode
      ("pip install " ++ intercalateS " " (strippedPackages env.reqContent)) ≠ 0) :
    pythonInstallPhase env =
      ((run_command env "pip install -r requirements.txt" false).1 ++
        [Event.msg "\n⚠ Pinned versions failed. Trying without version constraints...\n\n"] ++
        (run_command env
          ("pip install " ++ intercalateS " " (strippedPackages env.reqContent)) false).1 ++
        [Event.endMark], true) := by
  simp only [pythonInstallPhase, hreq, if_true]
  simp [run_command, h1, hpk, h2]

theorem pythonInstallPhase_empty_strip (env : ExecEnv)
    (hreq : env.reqExists = true)
    (h1 : env.exitCode "pip install -r requirements.txt" ≠ 0)
    (hpk : strippedPackages env.reqContent = []) :
    pythonInstallPhase env =
      ((run_command env "pip install -r requirements.txt" false).1 ++
        [Event.msg "\n⚠ Pinned versions failed. Trying without version constraints...\n\n",
         Event.endMark], true) := by
  simp only [pythonInstallPhase, hreq, if_true]
  simp [run_command, h1, hpk]

/-- Claim C5 amended theorem.  For a python session with a requirements
manifest whose `pip install -r requirements.txt` exits non-zero: if the
pin-stripped package list is non-empty, the install is retried exactly
once, installing exactly the pin-stripped package names, and when that
retry also exits non-zero the trace ends in the end-of-stream marker
(emitted once, at the end) with no further process — in particular not
the run command — ever spawned; if pin-stripping leaves no packages, the
retry is skipped and the pipeline aborts directly the same way, the
failed install being the only process ever spawned. -/
theorem exec_python_pip_retry (env : ExecEnv) (port : Nat)
    (hreq : env.reqExists = true)
    (h1 : env.exitCode "pip install -r requirements.txt" ≠ 0) :
    (strippedPackages env.reqContent ≠ [] →
      env.exitCode
        ("pip install " ++ intercalateS " " (strippedPackages env.reqContent)) ≠ 0 →
      ∃ pre, execute_project env ProjectType.PYTHON port = pre ++ [Event.endMark]
        ∧ Event.endMark ∉ pre
        ∧ spawnsOf (execute_project env ProjectType.PYTHON port) =
            ["pip install -r requirements.txt",
             "pip install " ++ intercalateS " " (strippedPackages env.reqContent)]) ∧
    (strippedPackages env.reqContent = [] →
      ∃ pre, execute_project env ProjectType.PYTHON port = pre ++ [Event.endMark]
        ∧ Event.endMark ∉ pre
        ∧ spawnsOf (execute_project env ProjectType.PYTHON port) =
            ["pip install -r requirements.txt"]) := by
  constructor
  · intro hpk h2
    have hip := pythonInstallPhase_both_fail env hreq h1 hpk h2
    refine ⟨[Event.msg ("Detected project type: " ++ ProjectType.PYTHON.value ++ "\n"),
      Event.msg ("Dev server will run on port: " ++ toString port ++ "\n\n")] ++
      ((run_command env "pip install -r requirements.txt" false).1 ++
        [Event.msg "\n⚠ Pinned versions failed. Trying without version constraints...\n\n"] ++
        (run_command env
          ("pip install " ++ intercalateS " " (strippedPackages env.reqContent)) false).1),
      ?_, ?_, ?_⟩ <;>
      simp [execute_project, get_run_commands, installPhase, hip,
        spawnsOf_run_command, noEnd_run_command]
  · intro hpk
    have hip := pythonInstallPhase_empty_strip env hreq h1 hpk
    refine ⟨[Event.msg ("Detected project type: " ++ ProjectType.PYTHON.value ++ "\n"),
      Event.msg ("Dev server will run on port: " ++ toString port ++ "\n\n")] ++
      ((run_command env "pip install -r requirements.txt" false).1 ++
        [Event.msg "\n⚠ Pinned versions failed. Trying without version constraints...\n\n"]),
      ?_, ?_, ?_⟩ <;>
      simp [execute_project, get_run_commands, installPhase, hip,
        spawnsOf_run_command, noEnd_run_command]

/-- Claim C5 counterexample.  A python session whose requirements manifest
holds only the comment line `# pinned` strips to no packages: when
`pip install -r requirements.txt` exits non-zero (here every command exits
1), the code skips the retry and aborts directly — the failed install is
the only spawned process, and the trace's last event is the end marker —
so it is not true that the install is always retried exactly once with
the stripped pins. -/
theorem python_empty_strip_no_retry :
    strippedPackages envEmptyStrip.reqContent = [] ∧
    spawnsOf (execute_project envEmptyStrip ProjectType.PYTHON 4001) =
      ["pip install -r requirements.txt"] ∧
    (execute_project envEmptyStrip ProjectType.PYTHON 4001).getLast? =
      some Event.endMark := ⟨rfl, rfl, rfl⟩

/-- Claim C5 witness: a python session with requirements `flask==1.0`
whose pip install and pinless retry (`pip install flask`) both exit 1,
and one with a comments-only manifest whose failed install aborts with
no retry. -/
theorem exec_python_pip_retry_witness :
    (∃ pre, execute_project envAllFail ProjectType.PYTHON 4001 = pre ++ [Event.endMark]
      ∧ Event.endMark ∉ pre
      ∧ spawnsOf (execute_project envAllFail ProjectType.PYTHON 4001) =
          ["pip install -r requirements.txt",
           "pip install " ++ intercalateS " " (strippedPackages envAllFail.reqContent)]) ∧
    (∃ pre, execute_project envEmptyStrip ProjectType.PYTHON 4001 = pre ++ [Event.endMark]
      ∧ Event.endMark ∉ pre
      ∧ spawnsOf (execute_project envEmptyStrip ProjectType.PYTHON 4001) =
          ["pip install -r requirements.txt"]) :=
  ⟨(exec_python_pip_retry envAllFail 4001 rfl (by decide)).1 (by decide) (by decide),
   (exec_python_pip_retry envEmptyStrip 4001 rfl (by decide)).2 (by decide)⟩

/-! ### Port binding of planned run commands (claim C7) -/

theorem strAppend_assoc (a b c : String) : a ++ b ++ c = a ++ (b ++ c) := by
  rcases a with ⟨la⟩; rcases b with ⟨lb⟩; rcases c with ⟨lc⟩
  show String.mk (la ++ lb ++ lc) = String.mk (la ++ (lb ++ lc))
  rw [List.append_assoc]

/-- The command explicitly binds the given port, via the `PORT`
environment variable or an explicit port flag carrying the port's decimal
representation. -/
def BindsPort (cmd : String) (port : Nat) : Prop :=
  ∃ flag a : String,
    (flag = "PORT=" ∨ flag = "-p " ∨ flag = "--port " ∨ flag = "--port=") ∧
    (cmd = a ++ (flag ++ toString port) ∨
      ∃ b : String, cmd = a ++ (flag ++ toString port) ++ b)

theorem prefOf_extend (n s b : List Char) (h : prefOf n s = true) :
    prefOf n (s ++ b) = true := by
  induction n generalizing s with
  | nil => simp
  | cons a as ih =>
      cases s with
      | nil => simp [prefOf] at h
      | cons x xs =>
          simp only [prefOf] at h ⊢
          by_cases hax : a = x
          · simp only [hax, if_true] at h ⊢
            exact ih xs h
          · simp [hax] at h

theorem subListOf_extend (n s b : List Char) (h : subListOf n s = true) :
    subListOf n (s ++ b) = true := by
  induction s with
  | nil =>
      simp only [subListOf, List.isEmpty_iff] at h
      subst h
      cases b with
      | nil => rfl
      | cons x xs => simp [subListOf]
  | cons x xs ih =>
      simp only [subListOf, Bool.or_eq_true] at h
      rcases h with h | h
      · simp only [List.cons_append, subListOf, Bool.or_eq_true]
        exact Or.inl (prefOf_extend n (x :: xs) b h)
      · simp only [List.cons_append, subListOf, Bool.or_eq_true]
        exact Or.inr (ih h)

/-- A command that binds a port contains the port's decimal digits. -/
theorem BindsPort_contains (cmd : String) (port : Nat) (h : BindsPort cmd port) :
    strContainsB cmd (toString port) = true := by
  obtain ⟨flag, a, _, h2 | ⟨b, h2⟩⟩ := h
  · subst h2
    show subListOf (toString port).data (a.data ++ (flag.data ++ (toString port).data)) = true
    refine subListOf_append_left _ _ _ (subListOf_append_left _ _ _ ?_)
    have := subListOf_here (toString port).data []
    rwa [List.append_nil] at this
  · subst h2
    show subListOf (toString port).data
      ((a.data ++ (flag.data ++ (toString port).data)) ++ b.data) = true
    refine subListOf_extend _ _ _ ?_
    refine subListOf_append_left _ _ _ (subListOf_append_left _ _ _ ?_)
    have := subListOf_here (toString port).data []
    rwa [List.append_nil] at this

theorem bindsPort_set_port (port : Nat) (tail : String) :
    BindsPort ("set PORT=" ++ toString port ++ tail) port :=
  ⟨"PORT=", "set ", Or.inl rfl, Or.inr ⟨tail, rfl⟩⟩

theorem bindsPort_uvicorn (port : Nat) (m : String) :
    BindsPort ("uvicorn " ++ m ++ ":app --reload --host 0.0.0.0 --port " ++ toString port)
      port := by
  refine ⟨"--port ", "uvicorn " ++ m ++ ":app --reload --host 0.0.0.0 ",
    Or.inr (Or.inr (Or.inl rfl)), Or.inl ?_⟩
  calc "uvicorn " ++ m ++ ":app --reload --host 0.0.0.0 --port " ++ toString port
      = "uvicorn " ++ m ++ (":app --reload --host 0.0.0.0 " ++ "--port ") ++ toString port := rfl
    _ = "uvicorn " ++ m ++ ":app --reload --host 0.0.0.0 " ++ "--port " ++ toString port := by
        rw [← strAppend_assoc ("uvicorn " ++ m) ":app --reload --host 0.0.0.0 " "--port "]
    _ = "uvicorn " ++ m ++ ":app --reload --host 0.0.0.0 " ++ ("--port " ++ toString port) := by
        rw [strAppend_assoc]

theorem bindsPort_flask (port : Nat) (m : String) :
    BindsPort ("set FLASK_APP=" ++ m ++
      " && set FLASK_DEBUG=1 && flask run --host=0.0.0.0 --port=" ++ toString port) port := by
  refine ⟨"--port=", "set FLASK_APP=" ++ m ++
    " && set FLASK_DEBUG=1 && flask run --host=0.0.0.0 ",
    Or.inr (Or.inr (Or.inr rfl)), Or.inl ?_⟩
  calc "set FLASK_APP=" ++ m ++
        " && set FLASK_DEBUG=1 && flask run --host=0.0.0.0 --port=" ++ toString port
      = "set FLASK_APP=" ++ m ++
        (" && set FLASK_DEBUG=1 && flask run --host=0.0.0.0 " ++ "--port=") ++ toString port := rfl
    _ = "set FLASK_APP=" ++ m ++
        " && set FLASK_DEBUG=1 && flask run --host=0.0.0.0 " ++ "--port=" ++ toString port := by
        rw [← strAppend_assoc ("set FLASK_APP=" ++ m)
          " && set FLASK_DEBUG=1 && flask run --host=0.0.0.0 " "--port="]
    _ = "set FLASK_APP=" ++ m ++
        " && set FLASK_DEBUG=1 && flask run --host=0.0.0.0 " ++ ("--port=" ++ toString port) := by
        rw [strAppend_assoc]

theorem bindsPort_set_port_python (port : Nat) (m : String) :
    BindsPort ("set PORT=" ++ toString port ++ " && python " ++ m) port :=
  ⟨"PORT=", "set ", Or.inl rfl,
    Or.inr ⟨" && python " ++ m,
      by rw [strAppend_assoc ("set PORT=" ++ toString port) " && python " m]; rfl⟩⟩

theorem bindsPort_set_port_nodemon (port : Nat) (m : String) :
    BindsPort ("set PORT=" ++ toString port ++ " && npx nodemon " ++ m) port :=
  ⟨"PORT=", "set ", Or.inl rfl,
    Or.inr ⟨" && npx nodemon " ++ m,
      by rw [strAppend_assoc ("set PORT=" ++ toString port) " && npx nodemon " m]; rfl⟩⟩

/-- Claim C7 amended theorem.  Command planning is a function of the
port allocated beforehand, and the run command binds that port: the
planner's run command for every node-family type binds it, the rebuilt
nodemon command for node sessions binds it, and the python run command
binds it whenever the project root contains at least one python file. -/
theorem run_cmd_binds_allocated_port (env : ExecEnv) (port : Nat)
    (useNodemon : Bool) (pt : ProjectType) (r0 : String)
    (hpt : pt = .NEXTJS ∨ pt = .REACT_CRA ∨ pt = .VITE ∨ pt = .NODEJS)
    (hpy : env.pyFiles ≠ []) :
    BindsPort (get_run_commands pt port useNodemon).2 port
    ∧ BindsPort (nodejsPhase env port).2 port
    ∧ BindsPort (pythonRunCmd env port r0) port := by
  refine ⟨?_, ?_, ?_⟩
  · rcases hpt with h | h | h | h <;> subst h
    · exact ⟨"-p ", "npm run dev -- ", Or.inr (Or.inl rfl), Or.inl rfl⟩
    · exact ⟨"PORT=", "set ", Or.inl rfl, Or.inr ⟨" && npm start", rfl⟩⟩
    · exact ⟨"--port ", "npm run dev -- ", Or.inr (Or.inr (Or.inl rfl)), Or.inl rfl⟩
    · cases useNodemon with
      | false =>
          exact ⟨"PORT=", "set ", Or.inl rfl, Or.inr ⟨" && npm start", rfl⟩⟩
      | true =>
          exact ⟨"PORT=", "set ", Or.inl rfl, Or.inr ⟨" && npx nodemon server.js", rfl⟩⟩
  · cases hp : env.patchedFiles with
    | nil =>
        have h2 : (nodejsPhase env port).2 =
            "set PORT=" ++ toString port ++ " && npx nodemon " ++ nodeEntryFallback env := by
          simp [nodejsPhase, hp]
        rw [h2]
        exact bindsPort_set_port_nodemon port (nodeEntryFallback env)
    | cons p0 ps =>
        have h2 : (nodejsPhase env port).2 =
            "set PORT=" ++ toString port ++ " && npx nodemon " ++ p0 := by
          simp [nodejsPhase, hp]
        rw [h2]
        exact bindsPort_set_port_nodemon port p0
  · rcases hfs : env.pyFiles with _ | ⟨f0, fs⟩
    · exact absurd hfs hpy
    · simp only [pythonRunCmd, hfs]
      split_ifs <;>
        first
          | exact bindsPort_uvicorn port _
          | exact bindsPort_flask port _
          | exact bindsPort_set_port_python port _

/-- Claim C7 witness: instantiation for a nextjs plan and an environment
with a python file at the project root. -/
theorem run_cmd_binds_allocated_port_witness :
    BindsPort (get_run_commands ProjectType.NEXTJS 4001 false).2 4001
    ∧ BindsPort (nodejsPhase envAllFail 4001).2 4001
    ∧ BindsPort (pythonRunCmd envAllFail 4001 "python main.py") 4001 :=
  run_cmd_binds_allocated_port envAllFail 4001 false ProjectType.NEXTJS
    "python main.py" (Or.inl rfl) (by decide)

/-- An environment for a python-classified session whose project root has
no python file (the classifier can select python from a `.py` file nested
in a subdirectory, or from a requirements manifest alone). -/
def envNoPy : ExecEnv :=
  ⟨false, false, false, "", [], fun _ => false, [], false, fun _ => 0, fun _ => []⟩

/-- Claim C7 counterexample.  For a python session with no python file at
the project root, the pipeline runs the planner's default command
`python main.py`, which does not bind (or even mention) the allocated
port: the run command of the resulting plan does not always bind the
session's port. -/
theorem python_default_run_no_port :
    spawnsOf (execute_project envNoPy ProjectType.PYTHON 3999) = ["python main.py"]
    ∧ strContainsB "python main.py" (toString 3999) = false
    ∧ ¬ BindsPort "python main.py" 3999 := by
  refine ⟨rfl, by decide, ?_⟩
  intro h
  have hc := BindsPort_contains _ _ h
  rw [show strContainsB "python main.py" (toString 3999) = false by decide] at hc
  cases hc

/-! ## `stop_session`

The session registry is modelled as an association list from session id to
the stop-relevant session state.  The platform kill of the process tree is
an external effect: its outcome is passed in as a parameter, and since the
Python code wraps the entire kill in `try/except`, the resulting registry
state does not depend on it. -/

/-- The stop-relevant state of one session. -/
structure SessState where
  isRunning : Bool
  shouldStop : Bool
  hasProcess : Bool
deriving BEq, DecidableEq

/-- `active_sessions.get(session_id)`. -/
def lookupSess : List (String × SessState) → String → Option SessState
  | [], _ => none
  | kv :: rest, sid => if kv.1 = sid then some kv.2 else lookupSess rest sid

/-- Mutation of the session object held in the registry. -/
def updateSess : List (String × SessState) → String → SessState → List (String × SessState)
  | [], _, _ => []
  | kv :: rest, sid, v => (if kv.1 = sid then (kv.1, v) else kv) :: updateSess rest sid v

/-- The externally visible kill action of `stop_session`. -/
inductive StopAct where
  | killTree : StopAct
deriving DecidableEq

/-- `stop_session`: returns `(found, new registry, kill actions)`.  An
unknown id returns false and changes nothing.  Otherwise the stop flag is
set; the process tree is killed only when a process handle is present and
the session is marked running; any kill failure (`_killOutcome = false`)
is caught and logged, so the remainder is unconditional: the session is
marked not running and true is returned. -/
def stop_session (reg : List (String × SessState)) (sid : String)
    (_killOutcome : Bool) : Bool × List (String × SessState) × List StopAct :=
  match lookupSess reg sid with
  | none => (false, reg, [])
  | some s =>
      let s1 : SessState := ⟨s.isRunning, true, s.hasProcess⟩
      let acts := if s1.hasProcess && s1.isRunning then [StopAct.killTree] else []
      let s2 : SessState := ⟨false, true, s1.hasProcess⟩
      (true, updateSess reg sid s2, acts)

theorem lookupSess_updateSess (reg : List (String × SessState)) (sid : String)
    (v : SessState) (s : SessState) (h : lookupSess reg sid = some s) :
    lookupSess (updateSess reg sid v) sid = some v := by
  induction reg with
  | nil => simp [lookupSess] at h
  | cons kv rest ih =>
      by_cases hk : kv.1 = sid
      · simp [lookupSess, updateSess, hk]
      · simp only [lookupSess, updateSess, hk, if_false, if_neg hk] at h ⊢
        exact ih h

/-- Claim C8 theorem.  `stop` on an unknown id returns false and performs
nothing; on an existing session it returns true and, regardless of
whether the platform kill succeeded, leaves the session marked not
running with the stop flag set; a second `stop` on the same session
again returns true, and kills nothing further. -/
theorem stop_session_behaviour (reg : List (String × SessState)) (sid : String)
    (k1 k2 : Bool) :
    (lookupSess reg sid = none → stop_session reg sid k1 = (false, reg, []))
    ∧ (∀ s, lookupSess reg sid = some s →
        (stop_session reg sid k1).1 = true
        ∧ lookupSess (stop_session reg sid k1).2.1 sid =
            some ⟨false, true, s.hasProcess⟩
        ∧ (stop_session (stop_session reg sid k1).2.1 sid k2).1 = true
        ∧ (stop_session (stop_session reg sid k1).2.1 sid k2).2.2 = []) := by
  constructor
  · intro h
    simp [stop_session, h]
  · intro s hs
    have hlook : lookupSess (stop_session reg sid k1).2.1 sid =
        some ⟨false, true, s.hasProcess⟩ := by
      simp only [stop_session, hs]
      exact lookupSess_updateSess reg sid _ s hs
    refine ⟨by simp [stop_session, hs], hlook, ?_, ?_⟩
    all_goals
      generalize hX : (stop_session reg sid k1).2.1 = X at hlook
      simp [stop_session, hlook]

/-- Claim C8 witness: a registry holding one live session `a`. -/
theorem stop_session_witness :
    (stop_session [("a", ⟨true, false, true⟩)] "zzz" false).1 = false
    ∧ (stop_session [("a", ⟨true, false, true⟩)] "a" false).1 = true
    ∧ lookupSess (stop_session [("a", ⟨true, false, true⟩)] "a" false).2.1 "a" =
        some ⟨false, true, true⟩
    ∧ (stop_session (stop_session [("a", ⟨true, false, true⟩)] "a" false).2.1 "a" true).1 = true
    ∧ (stop_session (stop_session [("a", ⟨true, false, true⟩)] "a" false).2.1 "a" true).2.2 = [] := by
  obtain ⟨ha, hb, hc, hd⟩ :=
    (stop_session_behaviour [("a", ⟨true, false, true⟩)] "a" false true).2
      ⟨true, false, true⟩ rfl
  have h0 := (stop_session_behaviour [("a", ⟨true, false, true⟩)] "zzz" false true).1 rfl
  exact ⟨by rw [h0], ha, hb, hc, hd⟩

/-! ## `update_file` (router)

The request handler's filesystem behaviour is modelled as a result: an
error response, or the ordered list of filesystem mutations it performs
(`os.makedirs` of the parent, then the file write). -/

inductive UpdateErr where
  | notFound : UpdateErr
  | invalidPath : UpdateErr
deriving DecidableEq

inductive FsOp where
  | mkdirParents (path : String) : FsOp
  | writeFile (path : String) (content : String) : FsOp
deriving DecidableEq

/-- `file_path.replace("\\", "/")` followed by `.lstrip("/")`. -/
def normalizePathL (p : List Char) : List Char :=
  (p.map (fun c => if c = '\\' then '/' else c)).dropWhile (fun c => c = '/')

/-- `os.path.dirname` (posix model): everything before the last slash. -/
def dirnameL (l : List Char) : List Char :=
  (((l.reverse.dropWhile (fun c => c ≠ '/')).drop 1)).reverse

/-- `update_file`: 404 for an unknown session; 400, before any
filesystem mutation, when the normalized path contains `..`; otherwise
the parent-directory creation followed by the file write. -/
def update_file (sessionExists : Bool) (projectDir : String)
    (p content : String) : Except UpdateErr (List FsOp) :=
  if ¬ sessionExists then .error .notFound
  else
    let fp := normalizePathL p.data
    if subListOf ['.', '.'] fp then .error .invalidPath
    else
      let full := projectDir ++ "/" ++ String.mk fp
      .ok [FsOp.mkdirParents (String.mk (dirnameL full.data)),
           FsOp.writeFile full content]

/-- The relative path contains a parent-directory traversal segment: one
of its slash-separated segments (after backslash normalization) is
exactly `..`. -/
def hasTraversalSeg (p : String) : Prop :=
  ['.', '.'] ∈ splitChar '/' (p.data.map (fun c => if c = '\\' then '/' else c))

theorem splitChar_ne_nil (c : Char) (r : List Char) : splitChar c r ≠ [] := by
  induction r with
  | nil => simp [splitChar]
  | cons x xs ihx =>
      by_cases hx : x = c
      · simp [splitChar, hx]
      · simp only [splitChar, hx, if_false, if_neg hx]
        rcases h : splitChar c xs with _ | ⟨s, ss⟩
        · simp
        · simp

theorem splitChar_head_prefOf (c : Char) (r : List Char) :
    ∀ s ss, splitChar c r = s :: ss → prefOf s r = true := by
  induction r with
  | nil =>
      intro s ss h
      simp only [splitChar, List.cons.injEq] at h
      rw [← h.1]
      rfl
  | cons d r' ih =>
      intro s ss h
      by_cases hd : d = c
      · simp only [splitChar, hd, if_true, List.cons.injEq] at h
        rw [← h.1]
        rfl
      · simp only [splitChar, hd, if_false, if_neg hd] at h
        rcases hr : splitChar c r' with _ | ⟨s', ss'⟩
        · rw [hr] at h
          simp at h
          rw [← h.1]
          simp [prefOf]
        · rw [hr] at h
          simp only [List.cons.injEq] at h
          rw [← h.1]
          simp only [prefOf, if_pos rfl]
          exact ih s' ss' hr

theorem mem_splitChar_subListOf (c : Char) (l : List Char) (t : List Char)
    (h : t ∈ splitChar c l) : subListOf t l = true := by
  induction l with
  | nil =>
      simp only [splitChar, List.mem_singleton] at h
      subst h
      rfl
  | cons d r ih =>
      by_cases hd : d = c
      · simp only [splitChar, hd, if_true, List.mem_cons] at h
        rcases h with h | h
        · subst h
          simp [subListOf]
        · exact subListOf_cons_of t r d (ih h)
      · simp only [splitChar, hd, if_false, if_neg hd] at h
        rcases hr : splitChar c r with _ | ⟨s', ss'⟩
        · exact absurd hr (splitChar_ne_nil c r)
        · rw [hr] at h
          rcases List.mem_cons.mp h with h | h
          · subst h
            have hp := splitChar_head_prefOf c r s' ss' hr
            simp only [subListOf, Bool.or_eq_true]
            exact Or.inl (by simp only [prefOf, if_pos rfl]; exact hp)
          · exact subListOf_cons_of t r d (ih (hr ▸ List.mem_cons_of_mem s' h))

theorem subListOf_dotdot_dropSlashes (q : List Char)
    (h : subListOf ['.', '.'] q = true) :
    subListOf ['.', '.'] (q.dropWhile (fun c => c = '/')) = true := by
  induction q with
  | nil => simp [subListOf] at h
  | cons x xs ih =>
      by_cases hx : x = '/'
      · subst hx
        simp only [List.dropWhile]
        simp only [subListOf, Bool.or_eq_true] at h
        rcases h with h | h
        · simp [prefOf] at h
        · simpa using ih h
      · simpa [List.dropWhile, hx] using h

/-- Claim C9 theorem.  Every `update_file` request whose relative path
contains a `..` traversal segment is rejected with an error, before any
filesystem mutation: for an existing session the result is exactly the
invalid-path error, for an unknown session the not-found error, and in no
case is any directory created or file written. -/
theorem update_file_rejects_traversal (se : Bool) (dir p content : String)
    (h : hasTraversalSeg p) :
    update_file true dir p content = .error .invalidPath
    ∧ update_file false dir p content = .error .notFound
    ∧ ∀ ops, update_file se dir p content ≠ .ok ops := by
  have key : subListOf ['.', '.'] (normalizePathL p.data) = true := by
    unfold normalizePathL
    exact subListOf_dotdot_dropSlashes _ (mem_splitChar_subListOf _ _ _ h)
  refine ⟨by simp [update_file, key], by simp [update_file], ?_⟩
  intro ops
  cases se
  · simp [update_file]
  · simp [update_file, key]

/-- Claim C9 witness: the request `../etc/passwd` against a live session
is rejected as an invalid path. -/
theorem update_file_rejects_traversal_witness :
    update_file true "/tmp/ws" "../etc/passwd" "boom" = .error .invalidPath :=
  (update_file_rejects_traversal true "/tmp/ws" "../etc/passwd" "boom"
    (by unfold hasTraversalSeg; decide)).1

/-! ## `patch_nodejs_port` (claim C6)

The two `re.sub` rewrites are embedded as deterministic scanners.  The
patterns

  pattern 1: `\.listen\s*\(\s*(\d{3,5})\s*([,\)])`
  pattern 2: `(const|let|var)\s+(port|PORT)\s*=\s*(\d{3,5})\s*;`

are backtracking-free on every input: the alternations (`const|let|var`,
`port|PORT`) consist of words with pairwise distinct first characters, so
at most one branch can match at a position; and `\d{3,5}` followed
(after `\s*`) by a non-digit ([,\)] or ;) matches exactly a maximal digit
run of length 3 to 5 — if the maximal run is longer than 5, backtracking
to 5, 4 or 3 digits still leaves a digit where the non-digit is required,
so the whole pattern fails at that position, and a shorter-than-maximal
capture inside a run fails the same way.  `\s`/`\d` are modelled over
ASCII (non-ASCII whitespace and digits are outside the model).
`re.sub` scans left to right, replaces each leftmost non-overlapping
match and resumes after the replaced text, which is the scanner below. -/

/-- ASCII `\s` of the Python `re` module. -/
def isWsRe (c : Char) : Bool :=
  c = ' ' || c = '\t' || c = '\n' || c = '\r' || c = '\x0b' || c = '\x0c'

/-- ASCII `\d`. -/
def isDigitRe (c : Char) : Bool := '0' ≤ c && c ≤ '9'

def lDotListen : List Char := ['.', 'l', 'i', 's', 't', 'e', 'n']
def lConst : List Char := ['c', 'o', 'n', 's', 't']
def lLet : List Char := ['l', 'e', 't']
def lVar : List Char := ['v', 'a', 'r']
def lPortLower : List Char := ['p', 'o', 'r', 't']
def lPortUpper : List Char := ['P', 'O', 'R', 'T']

/-- Match of pattern 1 anchored at the start of `s`: returns the captured
digit run, the captured separator and the remainder after the match. -/
def matchP1At (s : List Char) : Option (List Char × Char × List Char) :=
  if prefOf lDotListen s then
    let r1 := (s.drop 7).dropWhile isWsRe
    if prefOf ['('] r1 then
      let r2 := (r1.drop 1).dropWhile isWsRe
      let d := r2.takeWhile isDigitRe
      if 3 ≤ d.length ∧ d.length ≤ 5 then
        let r4 := (r2.dropWhile isDigitRe).dropWhile isWsRe
        if prefOf [','] r4 then some (d, ',', r4.drop 1)
        else if prefOf [')'] r4 then some (d, ')', r4.drop 1)
        else none
      else none
    else none
  else none

/-- Pattern 2 from `\s*=` on, after keyword and variable have been
consumed; `r2` is the input positioned at the variable word. -/
def matchP2AtVar (kw v : List Char) (r2 : List Char) :
    Option (List Char × List Char × List Char × List Char) :=
  let r3 := (r2.drop v.length).dropWhile isWsRe
  if prefOf ['='] r3 then
    let r4 := (r3.drop 1).dropWhile isWsRe
    let d := r4.takeWhile isDigitRe
    if 3 ≤ d.length ∧ d.length ≤ 5 then
      let r5 := (r4.dropWhile isDigitRe).dropWhile isWsRe
      if prefOf [';'] r5 then some (kw, v, d, r5.drop 1) else none
    else none
  else none

/-- Pattern 2 from `\s+` on, after the keyword `kw` has matched at the
start of `s`. -/
def matchP2AtKw (kw : List Char) (s : List Char) :
    Option (List Char × List Char × List Char × List Char) :=
  let r1 := s.drop kw.length
  if (r1.takeWhile isWsRe).length = 0 then none
  else
    let r2 := r1.dropWhile isWsRe
    if prefOf lPortLower r2 then matchP2AtVar kw lPortLower r2
    else if prefOf lPortUpper r2 then matchP2AtVar kw lPortUpper r2
    else none

/-- Match of pattern 2 anchored at the start of `s`: returns the captured
keyword, variable spelling, digit run, and the remainder.  The
alternations are committed (no backtracking): their words have pairwise
distinct first characters. -/
def matchP2At (s : List Char) : Option (List Char × List Char × List Char × List Char) :=
  if prefOf lConst s then matchP2AtKw lConst s
  else if prefOf lLet s then matchP2AtKw lLet s
  else if prefOf lVar s then matchP2AtKw lVar s
  else none

/-- Replacement of pattern 1:
`.listen(process.env.PORT || {group 1}{group 2}`. -/
def repl1 (d : List Char) (sep : Char) : List Char :=
  ".listen(process.env.PORT || ".data ++ (d ++ [sep])

/-- Replacement of pattern 2:
`{group 1} {group 2} = process.env.PORT || {group 3};`. -/
def repl2 (kw v d : List Char) : List Char :=
  kw ++ (' ' :: (v ++ (" = process.env.PORT || ".data ++ (d ++ [';']))))

/-- The `re.sub` scan for pattern 1 (fuelled; each step consumes at least
one character, so fuel `s.length` suffices). -/
def sub1Go : Nat → List Char → List Char
  | 0, s => s
  | _ + 1, [] => []
  | f + 1, c :: cs =>
      match matchP1At (c :: cs) with
      | some (d, sep, rest) => repl1 d sep ++ sub1Go f rest
      | none => c :: sub1Go f cs

/-- The `re.sub` scan for pattern 2. -/
def sub2Go : Nat → List Char → List Char
  | 0, s => s
  | _ + 1, [] => []
  | f + 1, c :: cs =>
      match matchP2At (c :: cs) with
      | some (kw, v, d, rest) => repl2 kw v d ++ sub2Go f rest
      | none => c :: sub2Go f cs

def sub1 (s : List Char) : List Char := sub1Go s.length s

def sub2 (s : List Char) : List Char := sub2Go s.length s

/-- The per-file content transformation of `patch_nodejs_port`:
pattern 1 then pattern 2. -/
def patchContent (s : String) : String := String.mk (sub2 (sub1 s.data))

/-- Some position of `s` starts a pattern-1 match. -/
def hasMatch1 : List Char → Bool
  | [] => false
  | c :: t => (matchP1At (c :: t)).isSome || hasMatch1 t

/-- Some position of `s` starts a pattern-2 match. -/
def hasMatch2 : List Char → Bool
  | [] => false
  | c :: t => (matchP2At (c :: t)).isSome || hasMatch2 t

/-! ### Toolkit: prefixes, spans and blocked characters -/

theorem prefOf_decomp (w : List Char) : ∀ s, prefOf w s = true → s = w ++ s.drop w.length := by
  induction w with
  | nil => intro s _; simp
  | cons a as ih =>
      intro s h
      cases s with
      | nil => simp [prefOf] at h
      | cons b bs =>
          simp only [prefOf] at h
          by_cases hab : a = b
          · subst hab
            simp only [if_pos rfl] at h
            have := ih bs h
            simp only [List.length_cons, List.drop_succ_cons, List.cons_append]
            exact congrArg (a :: ·) this
          · simp [hab] at h

theorem drop_append_le (n : Nat) (y z : List Char) (h : n ≤ y.length) :
    (y ++ z).drop n = y.drop n ++ z := by
  induction y generalizing n with
  | nil =>
      have : n = 0 := by simpa using h
      subst this
      simp
  | cons c cs ih =>
      cases n with
      | zero => simp
      | succ m =>
          simp only [List.cons_append, List.drop_succ_cons]
          exact ih m (by simpa using h)

theorem dropWhile_append_blocked (p : Char → Bool) (y u : List Char) (b : Char)
    (hb : p b = false) : (y ++ b :: u).dropWhile p = y.dropWhile p ++ b :: u := by
  induction y with
  | nil => simp [List.dropWhile, hb]
  | cons c cs ih =>
      simp only [List.cons_append, List.dropWhile]
      cases hc : p c <;> simp [hc, ih]

theorem takeWhile_append_blocked (p : Char → Bool) (y u : List Char) (b : Char)
    (hb : p b = false) : (y ++ b :: u).takeWhile p = y.takeWhile p := by
  induction y with
  | nil => simp [List.takeWhile, hb]
  | cons c cs ih =>
      simp only [List.cons_append, List.takeWhile]
      cases hc : p c <;> simp [hc, ih]

/-- Agreement of a literal prefix test across a divergence after a shared
character `b`, provided the pattern cannot place `b` exactly at the
divergence point. -/
theorem prefOf_agree (w : List Char) : ∀ (y u v : List Char) (b : Char),
    w.get? y.length ≠ some b →
    prefOf w (y ++ b :: u) = prefOf w (y ++ b :: v) := by
  induction w with
  | nil => intro y u v b _; simp
  | cons a as ih =>
      intro y u v b hget
      cases y with
      | nil =>
          simp only [List.length_nil, List.get?] at hget
          have hab : ¬ a = b := fun h => hget (by rw [h])
          simp [prefOf, hab]
      | cons c cs =>
          simp only [List.cons_append, prefOf]
          by_cases hac : a = c
          · simp only [if_pos hac]
            exact ih cs u v b (by simpa using hget)
          · simp [hac]

/-- When the prefix test succeeds under the same side condition, the
pattern is contained in the shared part. -/
theorem prefOf_agree_len (w : List Char) : ∀ (y u : List Char) (b : Char),
    w.get? y.length ≠ some b →
    prefOf w (y ++ b :: u) = true → w.length ≤ y.length := by
  induction w with
  | nil => intro y u b _ _; simp
  | cons a as ih =>
      intro y u b hget h
      cases y with
      | nil =>
          simp only [List.length_nil, List.get?] at hget
          simp only [List.nil_append, prefOf] at h
          by_cases hab : a = b
          · exact absurd (by rw [hab]) hget
          · simp [hab] at h
      | cons c cs =>
          simp only [List.cons_append, prefOf] at h
          by_cases hac : a = c
          · simp only [if_pos hac] at h
            have := ih cs u b (by simpa using hget) h
            simpa using this
          · simp [hac] at h

theorem get?_ne_of_not_mem (w : List Char) (b : Char) (hb : b ∉ w) (n : Nat) :
    w.get? n ≠ some b := by
  intro h
  exact hb (List.get?_mem h)

theorem exSuffix_trans {x y z : List Char} (h1 : ∃ a, x = a ++ y)
    (h2 : ∃ b, y = b ++ z) : ∃ c, x = c ++ z := by
  obtain ⟨a, ha⟩ := h1
  obtain ⟨b, hb⟩ := h2
  exact ⟨a ++ b, by rw [ha, hb, List.append_assoc]⟩

theorem exSuffix_drop (l : List Char) (n : Nat) : ∃ a, l = a ++ l.drop n :=
  ⟨l.take n, (List.take_append_drop n l).symm⟩

theorem exSuffix_dropWhile (l : List Char) (p : Char → Bool) :
    ∃ a, l = a ++ l.dropWhile p :=
  ⟨l.takeWhile p, (List.takeWhile_append_dropWhile p l).symm⟩

/-! ### Shape of successful matches -/

/-- The remainder inspected for the separator of pattern 1 is a suffix of
the input. -/
theorem matchP1_chain (s : List Char) :
    ∃ pre, s = pre ++
      (((((s.drop 7).dropWhile isWsRe).drop 1).dropWhile isWsRe).dropWhile
        isDigitRe).dropWhile isWsRe := by
  have e0 : ∃ a, s = a ++ s.drop 7 := exSuffix_drop s 7
  have e1 := exSuffix_dropWhile (s.drop 7) isWsRe
  have e2 : ∃ a, (s.drop 7).dropWhile isWsRe =
      a ++ ((s.drop 7).dropWhile isWsRe).drop 1 := exSuffix_drop _ 1
  have e3 := exSuffix_dropWhile (((s.drop 7).dropWhile isWsRe).drop 1) isWsRe
  have e4 := exSuffix_dropWhile
    ((((s.drop 7).dropWhile isWsRe).drop 1).dropWhile isWsRe) isDigitRe
  have e5 := exSuffix_dropWhile
    (((((s.drop 7).dropWhile isWsRe).drop 1).dropWhile isWsRe).dropWhile isDigitRe)
    isWsRe
  exact exSuffix_trans (exSuffix_trans (exSuffix_trans
    (exSuffix_trans (exSuffix_trans e0 e1) e2) e3) e4) e5

theorem matchP1At_spec (s d rest : List Char) (sep : Char)
    (h : matchP1At s = some (d, sep, rest)) :
    (∀ c ∈ d, isDigitRe c = true) ∧ (sep = ',' ∨ sep = ')') ∧
    (∃ pre, s = pre ++ sep :: rest) ∧ (∃ r, s = '.' :: r) := by
  simp only [matchP1At] at h
  split_ifs at h with h1 h2 h3 h4 h5 <;> try exact Option.noConfusion h
  · injection h with h'
    injection h' with hd h''
    injection h'' with hsep hrest
    subst hd hsep
    refine ⟨fun c hc => List.mem_takeWhile_imp hc, Or.inl rfl, ?_, ?_⟩
    · obtain ⟨pre, hpre⟩ := matchP1_chain s
      have hr4 := prefOf_decomp [','] _ h4
      refine ⟨pre, ?_⟩
      rw [hpre, ← hrest]
      conv_lhs => rw [hr4]
      rfl
    · exact ⟨['l', 'i', 's', 't', 'e', 'n'] ++ s.drop 7,
        by rw [prefOf_decomp lDotListen s h1]; rfl⟩
  · injection h with h'
    injection h' with hd h''
    injection h'' with hsep hrest
    subst hd hsep
    refine ⟨fun c hc => List.mem_takeWhile_imp hc, Or.inr rfl, ?_, ?_⟩
    · obtain ⟨pre, hpre⟩ := matchP1_chain s
      have hr4 := prefOf_decomp [')'] _ h5
      refine ⟨pre, ?_⟩
      rw [hpre, ← hrest]
      conv_lhs => rw [hr4]
      rfl
    · exact ⟨['l', 'i', 's', 't', 'e', 'n'] ++ s.drop 7,
        by rw [prefOf_decomp lDotListen s h1]; rfl⟩

theorem length_lt_of_exPre {s rest : List Char} {c : Char}
    (h : ∃ pre, s = pre ++ c :: rest) : rest.length < s.length := by
  obtain ⟨p, hp⟩ := h
  subst hp
  simp only [List.length_append, List.length_cons]
  omega

theorem matchP2Var_chain (v r2 : List Char) :
    ∃ pre, r2 = pre ++
      (((((r2.drop v.length).dropWhile isWsRe).drop 1).dropWhile isWsRe).dropWhile
        isDigitRe).dropWhile isWsRe := by
  have e0 := exSuffix_drop r2 v.length
  have e1 := exSuffix_dropWhile (r2.drop v.length) isWsRe
  have e2 := exSuffix_drop ((r2.drop v.length).dropWhile isWsRe) 1
  have e3 := exSuffix_dropWhile (((r2.drop v.length).dropWhile isWsRe).drop 1) isWsRe
  have e4 := exSuffix_dropWhile
    ((((r2.drop v.length).dropWhile isWsRe).drop 1).dropWhile isWsRe) isDigitRe
  have e5 := exSuffix_dropWhile
    (((((r2.drop v.length).dropWhile isWsRe).drop 1).dropWhile isWsRe).dropWhile
      isDigitRe) isWsRe
  exact exSuffix_trans (exSuffix_trans (exSuffix_trans
    (exSuffix_trans (exSuffix_trans e0 e1) e2) e3) e4) e5

theorem matchP2AtVar_spec (kw v r2 kw' v' d rest : List Char)
    (h : matchP2AtVar kw v r2 = some (kw', v', d, rest)) :
    kw' = kw ∧ v' = v ∧ (∀ c ∈ d, isDigitRe c = true) ∧
      ∃ pre, r2 = pre ++ ';' :: rest := by
  simp only [matchP2AtVar] at h
  split_ifs at h with h1 h2 h3 <;> try exact Option.noConfusion h
  injection h with h'
  injection h' with hkw h''
  injection h'' with hv h'''
  injection h''' with hd hrest
  subst hkw hv hd
  refine ⟨rfl, rfl, fun c hc => List.mem_takeWhile_imp hc, ?_⟩
  obtain ⟨pre, hpre⟩ := matchP2Var_chain v r2
  have hr5 := prefOf_decomp [';'] _ h3
  refine ⟨pre, ?_⟩
  rw [hpre, ← hrest]
  conv_lhs => rw [hr5]
  rfl

theorem matchP2AtKw_spec (kw s kw' v' d rest : List Char)
    (h : matchP2AtKw kw s = some (kw', v', d, rest)) :
    kw' = kw ∧ (v' = lPortLower ∨ v' = lPortUpper) ∧
      (∀ c ∈ d, isDigitRe c = true) ∧ ∃ pre, s = pre ++ ';' :: rest := by
  simp only [matchP2AtKw] at h
  split_ifs at h with h1 h2 h3 <;> try exact Option.noConfusion h
  · obtain ⟨hkw, hv, hdig, hex⟩ := matchP2AtVar_spec _ _ _ _ _ _ _ h
    refine ⟨hkw, Or.inl hv, hdig, ?_⟩
    refine exSuffix_trans (exSuffix_trans (exSuffix_drop s kw.length)
      (exSuffix_dropWhile (s.drop kw.length) isWsRe)) hex
  · obtain ⟨hkw, hv, hdig, hex⟩ := matchP2AtVar_spec _ _ _ _ _ _ _ h
    refine ⟨hkw, Or.inr hv, hdig, ?_⟩
    refine exSuffix_trans (exSuffix_trans (exSuffix_drop s kw.length)
      (exSuffix_dropWhile (s.drop kw.length) isWsRe)) hex

theorem matchP2At_spec (s kw v d rest : List Char)
    (h : matchP2At s = some (kw, v, d, rest)) :
    (kw = lConst ∨ kw = lLet ∨ kw = lVar) ∧ (v = lPortLower ∨ v = lPortUpper) ∧
      (∀ c ∈ d, isDigitRe c = true) ∧ (∃ pre, s = pre ++ ';' :: rest) ∧
      (∃ r, s = kw ++ r) := by
  simp only [matchP2At] at h
  split_ifs at h with h1 h2 h3 <;> try exact Option.noConfusion h
  · obtain ⟨hkw, hv, hdig, hex⟩ := matchP2AtKw_spec _ _ _ _ _ _ h
    subst hkw
    exact ⟨Or.inl rfl, hv, hdig, hex,
      ⟨s.drop lConst.length, prefOf_decomp lConst s h1⟩⟩
  · obtain ⟨hkw, hv, hdig, hex⟩ := matchP2AtKw_spec _ _ _ _ _ _ h
    subst hkw
    exact ⟨Or.inr (Or.inl rfl), hv, hdig, hex,
      ⟨s.drop lLet.length, prefOf_decomp lLet s h2⟩⟩
  · obtain ⟨hkw, hv, hdig, hex⟩ := matchP2AtKw_spec _ _ _ _ _ _ h
    subst hkw
    exact ⟨Or.inr (Or.inr rfl), hv, hdig, hex,
      ⟨s.drop lVar.length, prefOf_decomp lVar s h3⟩⟩

/-! ### Characters that can never start a match -/

theorem hasMatch1_cons_none (c : Char) (cs : List Char)
    (h : matchP1At (c :: cs) = none) : hasMatch1 (c :: cs) = hasMatch1 cs := by
  simp [hasMatch1, h]

theorem hasMatch2_cons_none (c : Char) (cs : List Char)
    (h : matchP2At (c :: cs) = none) : hasMatch2 (c :: cs) = hasMatch2 cs := by
  simp [hasMatch2, h]

theorem hasMatch1_false_parts (c : Char) (cs : List Char)
    (h : hasMatch1 (c :: cs) = false) :
    matchP1At (c :: cs) = none ∧ hasMatch1 cs = false := by
  simp only [hasMatch1, Bool.or_eq_false_iff] at h
  exact ⟨Option.not_isSome_iff_eq_none.mp (by simp [h.1]), h.2⟩

theorem hasMatch2_false_parts (c : Char) (cs : List Char)
    (h : hasMatch2 (c :: cs) = false) :
    matchP2At (c :: cs) = none ∧ hasMatch2 cs = false := by
  simp only [hasMatch2, Bool.or_eq_false_iff] at h
  exact ⟨Option.not_isSome_iff_eq_none.mp (by simp [h.1]), h.2⟩

theorem hasMatch1_append_false (a b : List Char)
    (h : hasMatch1 (a ++ b) = false) : hasMatch1 b = false := by
  induction a with
  | nil => exact h
  | cons c cs ih => exact ih (hasMatch1_false_parts c (cs ++ b) h).2

theorem matchP1At_ne_dot (c : Char) (l : List Char) (h : ¬ c = '.') :
    matchP1At (c :: l) = none := by
  have hne : ('.' = c) = False := eq_false (fun he => h he.symm)
  simp [matchP1At, lDotListen, prefOf, hne]

theorem matchP2At_ne_kw (c : Char) (l : List Char)
    (hc : ¬ c = 'c') (hl : ¬ c = 'l') (hv : ¬ c = 'v') :
    matchP2At (c :: l) = none := by
  have h1 : ('c' = c) = False := eq_false (fun he => hc he.symm)
  have h2 : ('l' = c) = False := eq_false (fun he => hl he.symm)
  have h3 : ('v' = c) = False := eq_false (fun he => hv he.symm)
  simp [matchP2At, lConst, lLet, lVar, prefOf, h1, h2, h3]

theorem hasMatch1_no_dot (x : List Char) (u : List Char) (hx : '.' ∉ x) :
    hasMatch1 (x ++ u) = hasMatch1 u := by
  induction x with
  | nil => rfl
  | cons c cs ih =>
      have hc : ¬ c = '.' := fun he => hx (by simp [he])
      rw [List.cons_append, hasMatch1_cons_none c _ (matchP1At_ne_dot c _ hc)]
      exact ih (fun hm => hx (List.mem_cons_of_mem c hm))

theorem hasMatch2_no_kw (x : List Char) (u : List Char)
    (hx : ∀ c ∈ x, ¬ c = 'c' ∧ ¬ c = 'l' ∧ ¬ c = 'v') :
    hasMatch2 (x ++ u) = hasMatch2 u := by
  induction x with
  | nil => rfl
  | cons c cs ih =>
      obtain ⟨h1, h2, h3⟩ := hx c (by simp)
      rw [List.cons_append, hasMatch2_cons_none c _ (matchP2At_ne_kw c _ h1 h2 h3)]
      exact ih (fun c' hm => hx c' (List.mem_cons_of_mem c hm))

theorem isDigitRe_not_special (c : Char) (h : isDigitRe c = true) :
    ¬ c = '.' ∧ ¬ c = 'c' ∧ ¬ c = 'l' ∧ ¬ c = 'v' := by
  refine ⟨?_, ?_, ?_, ?_⟩ <;> (intro he; subst he; exact absurd h (by decide))

/-- Positions inside the pattern-1 replacement that hold a `.` do not
start a pattern-1 match, whatever follows. -/
theorem m1_block_head (x : List Char) :
    matchP1At ('.' :: ("listen(process".data ++ x)) = none := rfl

theorem m1_dot_env (x : List Char) :
    matchP1At ('.' :: ("env".data ++ x)) = none := rfl

theorem m1_dot_port (x : List Char) :
    matchP1At ('.' :: ("PORT || ".data ++ x)) = none := rfl

theorem m2_c_e (l : List Char) : matchP2At ('c' :: 'e' :: l) = none := rfl

theorem m2_v_dot (l : List Char) : matchP2At ('v' :: '.' :: l) = none := rfl

/-! ### The replacements contain no match start -/

/-- Scanning the pattern-1 replacement for pattern-1 matches: none start
inside it. -/
theorem scan1_repl1 (d u : List Char) (sep : Char)
    (hd : ∀ c ∈ d, isDigitRe c = true) (hsep : sep = ',' ∨ sep = ')') :
    hasMatch1 (repl1 d sep ++ u) = hasMatch1 u := by
  have hddot : '.' ∉ d := fun hm => absurd (hd '.' hm) (by decide)
  have hsepdot : ¬ sep = '.' := by rcases hsep with h | h <;> subst h <;> decide
  have e : repl1 d sep ++ u =
      '.' :: ("listen(process".data ++
        ('.' :: ("env".data ++ ('.' :: ("PORT || ".data ++ (d ++ sep :: u)))))) := by
    show (".listen(process.env.PORT || ".data ++ (d ++ [sep])) ++ u = _
    rw [List.append_assoc, List.append_assoc d [sep] u]
    rfl
  rw [e,
    hasMatch1_cons_none _ _ (m1_block_head _),
    hasMatch1_no_dot "listen(process".data _ (by decide),
    hasMatch1_cons_none _ _ (m1_dot_env _),
    hasMatch1_no_dot "env".data _ (by decide),
    hasMatch1_cons_none _ _ (m1_dot_port _),
    hasMatch1_no_dot "PORT || ".data _ (by decide),
    hasMatch1_no_dot d _ hddot,
    hasMatch1_cons_none _ _ (matchP1At_ne_dot sep u hsepdot)]

/-- Scanning the pattern-2 replacement for pattern-1 matches: none start
inside it. -/
theorem scan2_repl2_p1 (kw v d u : List Char)
    (hkw : kw = lConst ∨ kw = lLet ∨ kw = lVar)
    (hv : v = lPortLower ∨ v = lPortUpper)
    (hd : ∀ c ∈ d, isDigitRe c = true) :
    hasMatch1 (repl2 kw v d ++ u) = hasMatch1 u := by
  have hkwdot : '.' ∉ kw := by rcases hkw with h | h | h <;> subst h <;> decide
  have hvdot : '.' ∉ v := by rcases hv with h | h <;> subst h <;> decide
  have hddot : '.' ∉ d := fun hm => absurd (hd '.' hm) (by decide)
  have e : repl2 kw v d ++ u =
      kw ++ (' ' :: (v ++ (" = process".data ++
        ('.' :: ("env".data ++ ('.' :: ("PORT || ".data ++ (d ++ ';' :: u)))))))) := by
    show (kw ++ (' ' :: (v ++ (" = process.env.PORT || ".data ++ (d ++ [';']))))) ++ u = _
    rw [List.append_assoc, List.cons_append, List.append_assoc,
      List.append_assoc, List.append_assoc d [';'] u]
    rfl
  rw [e,
    hasMatch1_no_dot kw _ hkwdot,
    hasMatch1_cons_none _ _ (matchP1At_ne_dot ' ' _ (by decide)),
    hasMatch1_no_dot v _ hvdot,
    hasMatch1_no_dot " = process".data _ (by decide),
    hasMatch1_cons_none _ _ (m1_dot_env _),
    hasMatch1_no_dot "env".data _ (by decide),
    hasMatch1_cons_none _ _ (m1_dot_port _),
    hasMatch1_no_dot "PORT || ".data _ (by decide),
    hasMatch1_no_dot d _ hddot,
    hasMatch1_cons_none _ _ (matchP1At_ne_dot ';' u (by decide))]

/-- Head evaluations: a pattern-2 replacement does not itself start a
pattern-2 match (the digits expected after `=` meet the `p` of
`process`). -/
theorem m2_head_cp (x : List Char) :
    matchP2At ('c' :: ("onst port".data ++ (" = process".data ++ x))) = none := rfl

theorem m2_head_cP (x : List Char) :
    matchP2At ('c' :: ("onst PORT".data ++ (" = process".data ++ x))) = none := rfl

theorem m2_head_lp (x : List Char) :
    matchP2At ('l' :: ("et port".data ++ (" = process".data ++ x))) = none := rfl

theorem m2_head_lP (x : List Char) :
    matchP2At ('l' :: ("et PORT".data ++ (" = process".data ++ x))) = none := rfl

theorem m2_head_vp (x : List Char) :
    matchP2At ('v' :: ("ar port".data ++ (" = process".data ++ x))) = none := rfl

theorem m2_head_vP (x : List Char) :
    matchP2At ('v' :: ("ar PORT".data ++ (" = process".data ++ x))) = none := rfl

theorem m2_c_ess (x : List Char) : matchP2At ('c' :: ("ess".data ++ x)) = none := rfl

/-- Walking the literal part of the pattern-2 replacement for pattern-2
matches. -/
theorem scan2_lit_tail (d u : List Char) (hd : ∀ c ∈ d, isDigitRe c = true) :
    hasMatch2 (" = process".data ++
      ('.' :: ("env".data ++ ('.' :: ("PORT || ".data ++ (d ++ ';' :: u)))))) =
      hasMatch2 u := by
  have hdkw : ∀ c ∈ d, ¬ c = 'c' ∧ ¬ c = 'l' ∧ ¬ c = 'v' :=
    fun c hc => (isDigitRe_not_special c (hd c hc)).2
  show hasMatch2 (" = pro".data ++ ('c' :: ("ess".data ++ ('.' :: ("en".data ++
    ('v' :: ('.' :: ("PORT || ".data ++ (d ++ ';' :: u))))))))) = hasMatch2 u
  rw [hasMatch2_no_kw " = pro".data _ (by decide),
    hasMatch2_cons_none _ _ (m2_c_ess _),
    hasMatch2_no_kw "ess".data _ (by decide),
    hasMatch2_cons_none _ _ (matchP2At_ne_kw '.' _ (by decide) (by decide) (by decide)),
    hasMatch2_no_kw "en".data _ (by decide),
    hasMatch2_cons_none _ _ (m2_v_dot _),
    hasMatch2_cons_none _ _ (matchP2At_ne_kw '.' _ (by decide) (by decide) (by decide)),
    hasMatch2_no_kw "PORT || ".data _ (by decide),
    hasMatch2_no_kw d _ hdkw,
    hasMatch2_cons_none _ _ (matchP2At_ne_kw ';' u (by decide) (by decide) (by decide))]

/-- Scanning the pattern-2 replacement for pattern-2 matches: none start
inside it. -/
theorem scan2_repl2_p2 (kw v d u : List Char)
    (hkw : kw = lConst ∨ kw = lLet ∨ kw = lVar)
    (hv : v = lPortLower ∨ v = lPortUpper)
    (hd : ∀ c ∈ d, isDigitRe c = true) :
    hasMatch2 (repl2 kw v d ++ u) = hasMatch2 u := by
  have e : repl2 kw v d ++ u =
      kw ++ (' ' :: (v ++ (" = process".data ++
        ('.' :: ("env".data ++ ('.' :: ("PORT || ".data ++ (d ++ ';' :: u)))))))) := by
    show (kw ++ (' ' :: (v ++ (" = process.env.PORT || ".data ++ (d ++ [';']))))) ++ u = _
    rw [List.append_assoc, List.cons_append, List.append_assoc,
      List.append_assoc, List.append_assoc d [';'] u]
    rfl
  rw [e]
  rcases hkw with hk | hk | hk <;> rcases hv with hv' | hv' <;> subst hk hv'
  · show hasMatch2 ('c' :: ("onst port".data ++ (" = process".data ++
      ('.' :: ("env".data ++ ('.' :: ("PORT || ".data ++ (d ++ ';' :: u)))))))) = hasMatch2 u
    rw [hasMatch2_cons_none _ _ (m2_head_cp _),
      hasMatch2_no_kw "onst port".data _ (by decide)]
    exact scan2_lit_tail d u hd
  · show hasMatch2 ('c' :: ("onst PORT".data ++ (" = process".data ++
      ('.' :: ("env".data ++ ('.' :: ("PORT || ".data ++ (d ++ ';' :: u)))))))) = hasMatch2 u
    rw [hasMatch2_cons_none _ _ (m2_head_cP _),
      hasMatch2_no_kw "onst PORT".data _ (by decide)]
    exact scan2_lit_tail d u hd
  · show hasMatch2 ('l' :: ("et port".data ++ (" = process".data ++
      ('.' :: ("env".data ++ ('.' :: ("PORT || ".data ++ (d ++ ';' :: u)))))))) = hasMatch2 u
    rw [hasMatch2_cons_none _ _ (m2_head_lp _),
      hasMatch2_no_kw "et port".data _ (by decide)]
    exact scan2_lit_tail d u hd
  · show hasMatch2 ('l' :: ("et PORT".data ++ (" = process".data ++
      ('.' :: ("env".data ++ ('.' :: ("PORT || ".data ++ (d ++ ';' :: u)))))))) = hasMatch2 u
    rw [hasMatch2_cons_none _ _ (m2_head_lP _),
      hasMatch2_no_kw "et PORT".data _ (by decide)]
    exact scan2_lit_tail d u hd
  · show hasMatch2 ('v' :: ("ar port".data ++ (" = process".data ++
      ('.' :: ("env".data ++ ('.' :: ("PORT || ".data ++ (d ++ ';' :: u)))))))) = hasMatch2 u
    rw [hasMatch2_cons_none _ _ (m2_head_vp _),
      hasMatch2_no_kw "ar port".data _ (by decide)]
    exact scan2_lit_tail d u hd
  · show hasMatch2 ('v' :: ("ar PORT".data ++ (" = process".data ++
      ('.' :: ("env".data ++ ('.' :: ("PORT || ".data ++ (d ++ ';' :: u)))))))) = hasMatch2 u
    rw [hasMatch2_cons_none _ _ (m2_head_vP _),
      hasMatch2_no_kw "ar PORT".data _ (by decide)]
    exact scan2_lit_tail d u hd

/-! ### Transfer: a failed match anchored before a rewrite site stays
failed when the text after the divergence character changes -/

theorem singleton_get?_ne (c b : Char) (h : ¬ c = b) (n : Nat) :
    [c].get? n ≠ some b := by
  cases n with
  | zero => intro hh; exact h (Option.some.inj hh)
  | succ m => intro hh; exact Option.noConfusion hh

theorem get?_ge_ne (b : Char) :
    ∀ (k : Nat) (w : List Char), b ∉ w.drop k → ∀ n, k ≤ n → w.get? n ≠ some b := by
  intro k
  induction k with
  | zero => intro w hb n _; exact get?_ne_of_not_mem w b (by simpa using hb) n
  | succ k ih =>
      intro w hb n hn
      cases w with
      | nil => cases n <;> exact fun hh => Option.noConfusion hh
      | cons a as =>
          cases n with
          | zero => omega
          | succ m =>
              have : as.get? m ≠ some b := ih as (by simpa using hb) m (by omega)
              simpa using this

/-- At a position other than the very start, a `let` keyword blocks
pattern 1 even though `l` occurs inside `.listen`. -/
theorem matchP1At_let_special (a : Char) (w : List Char) :
    matchP1At (a :: 'l' :: 'e' :: 't' :: w) = none := by
  by_cases h : a = '.'
  · subst h; rfl
  · exact matchP1At_ne_dot a _ h

theorem transfer_p1_core (x u' v' : List Char) (b : Char)
    (hbw : isWsRe b = false) (hbd : isDigitRe b = false)
    (hbp : ¬ '(' = b) (hbc : ¬ ',' = b) (hbr : ¬ ')' = b)
    (hget1 : lDotListen.get? x.length ≠ some b)
    (h : matchP1At (x ++ b :: u') = none) : matchP1At (x ++ b :: v') = none := by
  have e1 := prefOf_agree lDotListen x u' v' b hget1
  by_cases hp1 : prefOf lDotListen (x ++ b :: u') = true
  case neg =>
    have hp1v : ¬ prefOf lDotListen (x ++ b :: v') = true := by rw [← e1]; exact hp1
    simp only [matchP1At]
    rw [if_neg hp1v]
  case pos =>
    have hp1v : prefOf lDotListen (x ++ b :: v') = true := by rw [← e1]; exact hp1
    have hlenD : lDotListen.length = 7 := rfl
    have hlen7 : (7 : Nat) ≤ x.length := by
      have := prefOf_agree_len lDotListen x u' b hget1 hp1
      rw [hlenD] at this
      exact this
    simp only [matchP1At] at h ⊢
    rw [if_pos hp1] at h
    rw [if_pos hp1v]
    rw [drop_append_le 7 x (b :: u') hlen7,
      dropWhile_append_blocked isWsRe (x.drop 7) u' b hbw] at h
    rw [drop_append_le 7 x (b :: v') hlen7,
      dropWhile_append_blocked isWsRe (x.drop 7) v' b hbw]
    set y2 := (x.drop 7).dropWhile isWsRe with hy2
    have e2 := prefOf_agree ['('] y2 u' v' b (singleton_get?_ne '(' b hbp y2.length)
    by_cases hp2 : prefOf ['('] (y2 ++ b :: u') = true
    case neg =>
      have hp2v : ¬ prefOf ['('] (y2 ++ b :: v') = true := by rw [← e2]; exact hp2
      rw [if_neg hp2v]
    case pos =>
      have hp2v : prefOf ['('] (y2 ++ b :: v') = true := by rw [← e2]; exact hp2
      rw [if_pos hp2] at h
      rw [if_pos hp2v]
      have hlen1 : (1 : Nat) ≤ y2.length := by
        have := prefOf_agree_len ['('] y2 u' b (singleton_get?_ne '(' b hbp y2.length) hp2
        simpa using this
      rw [drop_append_le 1 y2 (b :: u') hlen1,
        dropWhile_append_blocked isWsRe (y2.drop 1) u' b hbw,
        takeWhile_append_blocked isDigitRe _ u' b hbd] at h
      rw [drop_append_le 1 y2 (b :: v') hlen1,
        dropWhile_append_blocked isWsRe (y2.drop 1) v' b hbw,
        takeWhile_append_blocked isDigitRe _ v' b hbd]
      set y3 := (y2.drop 1).dropWhile isWsRe with hy3
      by_cases hld : 3 ≤ (y3.takeWhile isDigitRe).length ∧ (y3.takeWhile isDigitRe).length ≤ 5
      case neg => rw [if_neg hld]
      case pos =>
        rw [if_pos hld] at h
        rw [if_pos hld]
        rw [dropWhile_append_blocked isDigitRe y3 u' b hbd,
          dropWhile_append_blocked isWsRe _ u' b hbw] at h
        rw [dropWhile_append_blocked isDigitRe y3 v' b hbd,
          dropWhile_append_blocked isWsRe _ v' b hbw]
        set y5 := (y3.dropWhile isDigitRe).dropWhile isWsRe with hy5
        have e4 := prefOf_agree [','] y5 u' v' b (singleton_get?_ne ',' b hbc y5.length)
        by_cases hp4 : prefOf [','] (y5 ++ b :: u') = true
        case pos =>
          rw [if_pos hp4] at h
          exact absurd h (by simp)
        case neg =>
          have hp4v : ¬ prefOf [','] (y5 ++ b :: v') = true := by rw [← e4]; exact hp4
          rw [if_neg hp4] at h
          rw [if_neg hp4v]
          have e5 := prefOf_agree [')'] y5 u' v' b (singleton_get?_ne ')' b hbr y5.length)
          by_cases hp5 : prefOf [')'] (y5 ++ b :: u') = true
          case pos =>
            rw [if_pos hp5] at h
            exact absurd h (by simp)
          case neg =>
            have hp5v : ¬ prefOf [')'] (y5 ++ b :: v') = true := by rw [← e5]; exact hp5
            rw [if_neg hp5v]

/-- Transfer for pattern 1 across a divergence that starts with `.` at a
non-initial position. -/
theorem transfer_p1_dot (x u v : List Char) (hx : x ≠ [])
    (h : matchP1At (x ++ '.' :: u) = none) : matchP1At (x ++ '.' :: v) = none := by
  have hx1 : 1 ≤ x.length := by
    cases x with
    | nil => exact absurd rfl hx
    | cons a as => simp
  exact transfer_p1_core x u v '.' (by decide) (by decide) (by decide) (by decide)
    (by decide) (get?_ge_ne '.' 1 lDotListen (by decide) x.length hx1) h

/-- Transfer for pattern 1 across a divergence that starts with a whole
pattern-2 keyword at a non-initial position. -/
theorem transfer_p1_kws (x u v kw : List Char) (hx : x ≠ [])
    (hkw : kw = lConst ∨ kw = lLet ∨ kw = lVar)
    (h : matchP1At (x ++ (kw ++ u)) = none) : matchP1At (x ++ (kw ++ v)) = none := by
  have hx1 : 1 ≤ x.length := by
    cases x with
    | nil => exact absurd rfl hx
    | cons a as => simp
  rcases hkw with hk | hk | hk <;> subst hk
  · exact transfer_p1_core x ("onst".data ++ u) ("onst".data ++ v) 'c' (by decide)
      (by decide) (by decide) (by decide) (by decide)
      (get?_ge_ne 'c' 1 lDotListen (by decide) x.length hx1) h
  · by_cases hxl : x.length = 1
    · obtain ⟨a, ha⟩ : ∃ a, x = [a] := by
        cases x with
        | nil => exact absurd rfl hx
        | cons a as =>
            cases as with
            | nil => exact ⟨a, rfl⟩
            | cons b bs => simp at hxl
      subst ha
      exact matchP1At_let_special a v
    · have hx2 : 2 ≤ x.length := by omega
      exact transfer_p1_core x ("et".data ++ u) ("et".data ++ v) 'l' (by decide)
        (by decide) (by decide) (by decide) (by decide)
        (get?_ge_ne 'l' 2 lDotListen (by decide) x.length hx2) h
  · exact transfer_p1_core x ("ar".data ++ u) ("ar".data ++ v) 'v' (by decide)
      (by decide) (by decide) (by decide) (by decide)
      (get?_ge_ne 'v' 1 lDotListen (by decide) x.length hx1) h

theorem transfer_p2_atvar (kw v y u' v'' : List Char) (b : Char)
    (hvlen : v.length ≤ y.length)
    (hbw : isWsRe b = false) (hbd : isDigitRe b = false)
    (hbeq : ¬ '=' = b) (hbsemi : ¬ ';' = b)
    (h : matchP2AtVar kw v (y ++ b :: u') = none) :
    matchP2AtVar kw v (y ++ b :: v'') = none := by
  simp only [matchP2AtVar] at h ⊢
  rw [drop_append_le v.length y (b :: u') hvlen,
    dropWhile_append_blocked isWsRe _ u' b hbw] at h
  rw [drop_append_le v.length y (b :: v'') hvlen,
    dropWhile_append_blocked isWsRe _ v'' b hbw]
  set y3 := (y.drop v.length).dropWhile isWsRe with hy3
  have e3 := prefOf_agree ['='] y3 u' v'' b (singleton_get?_ne '=' b hbeq y3.length)
  by_cases hpe : prefOf ['='] (y3 ++ b :: u') = true
  case neg =>
    have hpev : ¬ prefOf ['='] (y3 ++ b :: v'') = true := by rw [← e3]; exact hpe
    rw [if_neg hpev]
  case pos =>
    have hpev : prefOf ['='] (y3 ++ b :: v'') = true := by rw [← e3]; exact hpe
    rw [if_pos hpe] at h
    rw [if_pos hpev]
    have hl1 : (1 : Nat) ≤ y3.length := by
      have := prefOf_agree_len ['='] y3 u' b (singleton_get?_ne '=' b hbeq y3.length) hpe
      simpa using this
    rw [drop_append_le 1 y3 (b :: u') hl1,
      dropWhile_append_blocked isWsRe (y3.drop 1) u' b hbw,
      takeWhile_append_blocked isDigitRe _ u' b hbd] at h
    rw [drop_append_le 1 y3 (b :: v'') hl1,
      dropWhile_append_blocked isWsRe (y3.drop 1) v'' b hbw,
      takeWhile_append_blocked isDigitRe _ v'' b hbd]
    set y4 := (y3.drop 1).dropWhile isWsRe with hy4
    by_cases hld : 3 ≤ (y4.takeWhile isDigitRe).length ∧ (y4.takeWhile isDigitRe).length ≤ 5
    case neg => rw [if_neg hld]
    case pos =>
      rw [if_pos hld] at h
      rw [if_pos hld]
      rw [dropWhile_append_blocked isDigitRe y4 u' b hbd,
        dropWhile_append_blocked isWsRe _ u' b hbw] at h
      rw [dropWhile_append_blocked isDigitRe y4 v'' b hbd,
        dropWhile_append_blocked isWsRe _ v'' b hbw]
      set y5 := (y4.dropWhile isDigitRe).dropWhile isWsRe with hy5
      have e5 := prefOf_agree [';'] y5 u' v'' b (singleton_get?_ne ';' b hbsemi y5.length)
      by_cases hps : prefOf [';'] (y5 ++ b :: u') = true
      case pos =>
        rw [if_pos hps] at h
        exact absurd h (by simp)
      case neg =>
        have hpsv : ¬ prefOf [';'] (y5 ++ b :: v'') = true := by rw [← e5]; exact hps
        rw [if_neg hpsv]

theorem transfer_p2_atkw (kw x u' v' : List Char) (b : Char)
    (hkwlen : kw.length ≤ x.length)
    (hbw : isWsRe b = false) (hbd : isDigitRe b = false)
    (hbP1 : ∀ n, lPortLower.get? n ≠ some b) (hbP2 : ∀ n, lPortUpper.get? n ≠ some b)
    (hbeq : ¬ '=' = b) (hbsemi : ¬ ';' = b)
    (h : matchP2AtKw kw (x ++ b :: u') = none) :
    matchP2AtKw kw (x ++ b :: v') = none := by
  simp only [matchP2AtKw] at h ⊢
  rw [drop_append_le kw.length x (b :: u') hkwlen,
    takeWhile_append_blocked isWsRe _ u' b hbw] at h
  rw [drop_append_le kw.length x (b :: v') hkwlen,
    takeWhile_append_blocked isWsRe _ v' b hbw]
  by_cases h0 : ((x.drop kw.length).takeWhile isWsRe).length = 0
  case pos => rw [if_pos h0]
  case neg =>
    rw [if_neg h0] at h
    rw [if_neg h0]
    rw [dropWhile_append_blocked isWsRe _ u' b hbw] at h
    rw [dropWhile_append_blocked isWsRe _ v' b hbw]
    set y2 := (x.drop kw.length).dropWhile isWsRe with hy2
    have eP1 := prefOf_agree lPortLower y2 u' v' b (hbP1 y2.length)
    by_cases hpl : prefOf lPortLower (y2 ++ b :: u') = true
    case pos =>
      have hplv : prefOf lPortLower (y2 ++ b :: v') = true := by rw [← eP1]; exact hpl
      rw [if_pos hpl] at h
      rw [if_pos hplv]
      exact transfer_p2_atvar kw lPortLower y2 u' v' b
        (prefOf_agree_len lPortLower y2 u' b (hbP1 y2.length) hpl) hbw hbd hbeq hbsemi h
    case neg =>
      have hplv : ¬ prefOf lPortLower (y2 ++ b :: v') = true := by rw [← eP1]; exact hpl
      rw [if_neg hpl] at h
      rw [if_neg hplv]
      have eP2 := prefOf_agree lPortUpper y2 u' v' b (hbP2 y2.length)
      by_cases hpu : prefOf lPortUpper (y2 ++ b :: u') = true
      case pos =>
        have hpuv : prefOf lPortUpper (y2 ++ b :: v') = true := by rw [← eP2]; exact hpu
        rw [if_pos hpu] at h
        rw [if_pos hpuv]
        exact transfer_p2_atvar kw lPortUpper y2 u' v' b
          (prefOf_agree_len lPortUpper y2 u' b (hbP2 y2.length) hpu) hbw hbd hbeq hbsemi h
      case neg =>
        have hpuv : ¬ prefOf lPortUpper (y2 ++ b :: v') = true := by rw [← eP2]; exact hpu
        rw [if_neg hpuv]

theorem transfer_p2_core (x u' v' : List Char) (b : Char) (hx1 : 1 ≤ x.length)
    (hb : b = 'c' ∨ b = 'l' ∨ b = 'v')
    (h : matchP2At (x ++ b :: u') = none) : matchP2At (x ++ b :: v') = none := by
  have hbw : isWsRe b = false := by rcases hb with h' | h' | h' <;> subst h' <;> decide
  have hbd : isDigitRe b = false := by rcases hb with h' | h' | h' <;> subst h' <;> decide
  have hbP1 : ∀ n, lPortLower.get? n ≠ some b :=
    get?_ne_of_not_mem lPortLower b (by rcases hb with h' | h' | h' <;> subst h' <;> decide)
  have hbP2 : ∀ n, lPortUpper.get? n ≠ some b :=
    get?_ne_of_not_mem lPortUpper b (by rcases hb with h' | h' | h' <;> subst h' <;> decide)
  have hbeq : ¬ '=' = b := by rcases hb with h' | h' | h' <;> subst h' <;> decide
  have hbsemi : ¬ ';' = b := by rcases hb with h' | h' | h' <;> subst h' <;> decide
  have hgc : lConst.get? x.length ≠ some b :=
    get?_ge_ne b 1 lConst (by rcases hb with h' | h' | h' <;> subst h' <;> decide) x.length hx1
  have hgl : lLet.get? x.length ≠ some b :=
    get?_ge_ne b 1 lLet (by rcases hb with h' | h' | h' <;> subst h' <;> decide) x.length hx1
  have hgv : lVar.get? x.length ≠ some b :=
    get?_ge_ne b 1 lVar (by rcases hb with h' | h' | h' <;> subst h' <;> decide) x.length hx1
  simp only [matchP2At] at h ⊢
  have eC := prefOf_agree lConst x u' v' b hgc
  have eL := prefOf_agree lLet x u' v' b hgl
  have eV := prefOf_agree lVar x u' v' b hgv
  by_cases hc : prefOf lConst (x ++ b :: u') = true
  case pos =>
    have hcv : prefOf lConst (x ++ b :: v') = true := by rw [← eC]; exact hc
    rw [if_pos hc] at h
    rw [if_pos hcv]
    exact transfer_p2_atkw lConst x u' v' b (prefOf_agree_len lConst x u' b hgc hc)
      hbw hbd hbP1 hbP2 hbeq hbsemi h
  case neg =>
    have hcv : ¬ prefOf lConst (x ++ b :: v') = true := by rw [← eC]; exact hc
    rw [if_neg hc] at h
    rw [if_neg hcv]
    by_cases hl : prefOf lLet (x ++ b :: u') = true
    case pos =>
      have hlv : prefOf lLet (x ++ b :: v') = true := by rw [← eL]; exact hl
      rw [if_pos hl] at h
      rw [if_pos hlv]
      exact transfer_p2_atkw lLet x u' v' b (prefOf_agree_len lLet x u' b hgl hl)
        hbw hbd hbP1 hbP2 hbeq hbsemi h
    case neg =>
      have hlv : ¬ prefOf lLet (x ++ b :: v') = true := by rw [← eL]; exact hl
      rw [if_neg hl] at h
      rw [if_neg hlv]
      by_cases hv : prefOf lVar (x ++ b :: u') = true
      case pos =>
        have hvv : prefOf lVar (x ++ b :: v') = true := by rw [← eV]; exact hv
        rw [if_pos hv] at h
        rw [if_pos hvv]
        exact transfer_p2_atkw lVar x u' v' b (prefOf_agree_len lVar x u' b hgv hv)
          hbw hbd hbP1 hbP2 hbeq hbsemi h
      case neg =>
        have hvv : ¬ prefOf lVar (x ++ b :: v') = true := by rw [← eV]; exact hv
        rw [if_neg hvv]

/-- Transfer for pattern 2 across a divergence that starts with a whole
pattern-2 keyword at a non-initial position. -/
theorem transfer_p2_kws (x u v kw : List Char) (hx : x ≠ [])
    (hkw : kw = lConst ∨ kw = lLet ∨ kw = lVar)
    (h : matchP2At (x ++ (kw ++ u)) = none) : matchP2At (x ++ (kw ++ v)) = none := by
  have hx1 : 1 ≤ x.length := by
    cases x with
    | nil => exact absurd rfl hx
    | cons a as => simp
  rcases hkw with hk | hk | hk <;> subst hk
  · exact transfer_p2_core x ("onst".data ++ u) ("onst".data ++ v) 'c' hx1 (Or.inl rfl) h
  · exact transfer_p2_core x ("et".data ++ u) ("et".data ++ v) 'l' hx1
      (Or.inr (Or.inl rfl)) h
  · exact transfer_p2_core x ("ar".data ++ u) ("ar".data ++ v) 'v' hx1
      (Or.inr (Or.inr rfl)) h

/-! ### The scans agree with their input up to the first rewrite site -/

/-- `sub1Go` either leaves its input unchanged or diverges from it only
after a common prefix followed by `.` on both sides. -/
theorem subAgree1 : ∀ (f : Nat) (cs : List Char),
    sub1Go f cs = cs ∨
      ∃ y u v, cs = y ++ '.' :: u ∧ sub1Go f cs = y ++ '.' :: v := by
  intro f
  induction f with
  | zero => intro cs; exact Or.inl rfl
  | succ f ih =>
      intro cs
      cases cs with
      | nil => exact Or.inl rfl
      | cons c t =>
          cases hm : matchP1At (c :: t) with
          | some val =>
              obtain ⟨d, sep, rest⟩ := val
              obtain ⟨hdig, hsep, hexpre, r, hr⟩ := matchP1At_spec (c :: t) d rest sep hm
              have hc : c = '.' := by injection hr
              right
              refine ⟨[], t,
                ("listen(process.env.PORT || ".data ++ (d ++ [sep])) ++ sub1Go f rest,
                ?_, ?_⟩
              · rw [hc, List.nil_append]
              · simp only [sub1Go, hm]
                rw [List.nil_append]
                show ('.' :: ("listen(process.env.PORT || ".data ++ (d ++ [sep]))) ++
                  sub1Go f rest = _
                rw [List.cons_append]
          | none =>
              rcases ih t with h1 | ⟨y, u, v, hcs, hsub⟩
              · left
                simp only [sub1Go, hm]
                rw [h1]
              · right
                refine ⟨c :: y, u, v, ?_, ?_⟩
                · rw [hcs, List.cons_append]
                · simp only [sub2Go, sub1Go, hm]
                  rw [hsub, List.cons_append]

/-- `sub2Go` either leaves its input unchanged or diverges from it only
after a common prefix followed by the same declaration keyword on both
sides. -/
theorem subAgree2 : ∀ (f : Nat) (cs : List Char),
    sub2Go f cs = cs ∨
      ∃ y kw u v, (kw = lConst ∨ kw = lLet ∨ kw = lVar) ∧
        cs = y ++ (kw ++ u) ∧ sub2Go f cs = y ++ (kw ++ v) := by
  intro f
  induction f with
  | zero => intro cs; exact Or.inl rfl
  | succ f ih =>
      intro cs
      cases cs with
      | nil => exact Or.inl rfl
      | cons c t =>
          cases hm : matchP2At (c :: t) with
          | some val =>
              obtain ⟨kw, vv, d, rest⟩ := val
              obtain ⟨hkw, hvv, hdig, hexpre, r, hr⟩ :=
                matchP2At_spec (c :: t) kw vv d rest hm
              right
              refine ⟨[], kw, r,
                (' ' :: (vv ++ (" = process.env.PORT || ".data ++ (d ++ [';'])))) ++
                  sub2Go f rest,
                hkw, ?_, ?_⟩
              · rw [List.nil_append]; exact hr
              · simp only [sub2Go, hm]
                rw [List.nil_append]
                show (kw ++ (' ' :: (vv ++ (" = process.env.PORT || ".data ++
                  (d ++ [';']))))) ++ sub2Go f rest = _
                rw [List.append_assoc]
          | none =>
              rcases ih t with h1 | ⟨y, kw, u, v, hkw, hcs, hsub⟩
              · left
                simp only [sub2Go, hm]
                rw [h1]
              · right
                refine ⟨c :: y, kw, u, v, hkw, ?_, ?_⟩
                · rw [hcs, List.cons_append]
                · simp only [sub2Go, hm]
                  rw [hsub, List.cons_append]

/-! ### After the scans, no match remains -/

/-- The output of the pattern-1 scan contains no pattern-1 match. -/
theorem noMatch1_sub1Go : ∀ (f : Nat) (t : List Char), t.length ≤ f →
    hasMatch1 (sub1Go f t) = false := by
  intro f
  induction f with
  | zero =>
      intro t ht
      have h0 : t = [] := List.length_eq_zero.mp (Nat.le_zero.mp ht)
      subst h0
      rfl
  | succ f ih =>
      intro t ht
      cases t with
      | nil => rfl
      | cons c cs =>
          cases hm : matchP1At (c :: cs) with
          | some val =>
              obtain ⟨d, sep, rest⟩ := val
              obtain ⟨hdig, hsep, hexpre, hr⟩ := matchP1At_spec (c :: cs) d rest sep hm
              have hlt : rest.length < (c :: cs).length := length_lt_of_exPre hexpre
              have hfuel : rest.length ≤ f := by
                simp only [List.length_cons] at hlt ht
                omega
              simp only [sub1Go, hm]
              rw [scan1_repl1 d (sub1Go f rest) sep hdig hsep]
              exact ih rest hfuel
          | none =>
              simp only [sub1Go, hm]
              have htail : hasMatch1 (sub1Go f cs) = false := by
                apply ih
                simp only [List.length_cons] at ht
                omega
              have hhead : matchP1At (c :: sub1Go f cs) = none := by
                by_cases hc : c = '.'
                · subst hc
                  rcases subAgree1 f cs with he | ⟨y, u, v, hcsy, hsuby⟩
                  · rw [he]; exact hm
                  · rw [hsuby]
                    have hm' : matchP1At (('.' :: y) ++ '.' :: u) = none := by
                      rw [List.cons_append, ← hcsy]; exact hm
                    have ht' := transfer_p1_dot ('.' :: y) u v (by simp) hm'
                    rw [List.cons_append] at ht'
                    exact ht'
                · exact matchP1At_ne_dot c _ hc
              rw [hasMatch1_cons_none c _ hhead]
              exact htail

/-- The pattern-2 scan preserves pattern-1 match freeness. -/
theorem noMatch1_sub2Go : ∀ (f : Nat) (t : List Char), t.length ≤ f →
    hasMatch1 t = false → hasMatch1 (sub2Go f t) = false := by
  intro f
  induction f with
  | zero => intro t _ h0; exact h0
  | succ f ih =>
      intro t ht h0
      cases t with
      | nil => rfl
      | cons c cs =>
          obtain ⟨hmc, hcs⟩ := hasMatch1_false_parts c cs h0
          cases hm : matchP2At (c :: cs) with
          | some val =>
              obtain ⟨kw, vv, d, rest⟩ := val
              obtain ⟨hkw, hvv, hdig, hexpre, hr⟩ :=
                matchP2At_spec (c :: cs) kw vv d rest hm
              have hlt : rest.length < (c :: cs).length := length_lt_of_exPre hexpre
              have hfuel : rest.length ≤ f := by
                simp only [List.length_cons] at hlt ht
                omega
              have hrest1 : hasMatch1 rest = false := by
                obtain ⟨pre, hp⟩ := hexpre
                rw [hp] at h0
                exact (hasMatch1_false_parts ';' rest
                  (hasMatch1_append_false pre (';' :: rest) h0)).2
              simp only [sub2Go, hm]
              rw [scan2_repl2_p1 kw vv d (sub2Go f rest) hkw hvv hdig]
              exact ih rest hfuel hrest1
          | none =>
              simp only [sub2Go, hm]
              have htail : hasMatch1 (sub2Go f cs) = false := by
                apply ih cs _ hcs
                simp only [List.length_cons] at ht
                omega
              have hhead : matchP1At (c :: sub2Go f cs) = none := by
                by_cases hc : c = '.'
                · subst hc
                  rcases subAgree2 f cs with he | ⟨y, kw, u, v, hkw, hcsy, hsuby⟩
                  · rw [he]; exact hmc
                  · rw [hsuby]
                    have hm' : matchP1At (('.' :: y) ++ (kw ++ u)) = none := by
                      rw [List.cons_append, ← hcsy]; exact hmc
                    have ht' := transfer_p1_kws ('.' :: y) u v kw (by simp) hkw hm'
                    rw [List.cons_append] at ht'
                    exact ht'
                · exact matchP1At_ne_dot c _ hc
              rw [hasMatch1_cons_none c _ hhead]
              exact htail

/-- The output of the pattern-2 scan contains no pattern-2 match. -/
theorem noMatch2_sub2Go : ∀ (f : Nat) (t : List Char), t.length ≤ f →
    hasMatch2 (sub2Go f t) = false := by
  intro f
  induction f with
  | zero =>
      intro t ht
      have h0 : t = [] := List.length_eq_zero.mp (Nat.le_zero.mp ht)
      subst h0
      rfl
  | succ f ih =>
      intro t ht
      cases t with
      | nil => rfl
      | cons c cs =>
          cases hm : matchP2At (c :: cs) with
          | some val =>
              obtain ⟨kw, vv, d, rest⟩ := val
              obtain ⟨hkw, hvv, hdig, hexpre, hr⟩ :=
                matchP2At_spec (c :: cs) kw vv d rest hm
              have hlt : rest.length < (c :: cs).length := length_lt_of_exPre hexpre
              have hfuel : rest.length ≤ f := by
                simp only [List.length_cons] at hlt ht
                omega
              simp only [sub2Go, hm]
              rw [scan2_repl2_p2 kw vv d (sub2Go f rest) hkw hvv hdig]
              exact ih rest hfuel
          | none =>
              simp only [sub2Go, hm]
              have htail : hasMatch2 (sub2Go f cs) = false := by
                apply ih
                simp only [List.length_cons] at ht
                omega
              have hhead : matchP2At (c :: sub2Go f cs) = none := by
                by_cases hcc : c = 'c' ∨ c = 'l' ∨ c = 'v'
                · rcases subAgree2 f cs with he | ⟨y, kw, u, v, hkw, hcsy, hsuby⟩
                  · rw [he]; exact hm
                  · rw [hsuby]
                    have hm' : matchP2At ((c :: y) ++ (kw ++ u)) = none := by
                      rw [List.cons_append, ← hcsy]; exact hm
                    have ht' := transfer_p2_kws (c :: y) u v kw (by simp) hkw hm'
                    rw [List.cons_append] at ht'
                    exact ht'
                · push_neg at hcc
                  exact matchP2At_ne_kw c _ hcc.1 hcc.2.1 hcc.2.2
              rw [hasMatch2_cons_none c _ hhead]
              exact htail

/-! ### Match-free inputs are fixed points of the scans -/

theorem sub1Go_eq_of_noMatch : ∀ (f : Nat) (t : List Char),
    hasMatch1 t = false → sub1Go f t = t := by
  intro f
  induction f with
  | zero => intro t _; rfl
  | succ f ih =>
      intro t h0
      cases t with
      | nil => rfl
      | cons c cs =>
          obtain ⟨hmc, hcs⟩ := hasMatch1_false_parts c cs h0
          simp only [sub1Go, hmc]
          rw [ih cs hcs]

theorem sub2Go_eq_of_noMatch : ∀ (f : Nat) (t : List Char),
    hasMatch2 t = false → sub2Go f t = t := by
  intro f
  induction f with
  | zero => intro t _; rfl
  | succ f ih =>
      intro t h0
      cases t with
      | nil => rfl
      | cons c cs =>
          obtain ⟨hmc, hcs⟩ := hasMatch2_false_parts c cs h0
          simp only [sub2Go, hmc]
          rw [ih cs hcs]

/-- C6: Port patching rewrites the hardcoded call `app.listen(3000)` into
`app.listen(process.env.PORT || 3000)`, reading the dynamic port variable
while keeping the literal `3000` as the fallback default; input already
using the dynamic port expression is left unchanged; and the per-file
patch transformation is idempotent: applying it twice to any file content
yields the same result as applying it once. -/
theorem patch_port_rewrite_idempotent :
    patchContent "app.listen(3000)" = "app.listen(process.env.PORT || 3000)" ∧
    patchContent "app.listen(process.env.PORT || 3000)" =
      "app.listen(process.env.PORT || 3000)" ∧
    ∀ s : String, patchContent (patchContent s) = patchContent s := by
  refine ⟨rfl, rfl, ?_⟩
  intro s
  have h1 : hasMatch1 (sub1 s.data) = false :=
    noMatch1_sub1Go s.data.length s.data le_rfl
  have h1w : hasMatch1 (sub2 (sub1 s.data)) = false :=
    noMatch1_sub2Go (sub1 s.data).length (sub1 s.data) le_rfl h1
  have h2w : hasMatch2 (sub2 (sub1 s.data)) = false :=
    noMatch2_sub2Go (sub1 s.data).length (sub1 s.data) le_rfl
  have e1 : sub1 (sub2 (sub1 s.data)) = sub2 (sub1 s.data) :=
    sub1Go_eq_of_noMatch _ _ h1w
  have e2 : sub2 (sub2 (sub1 s.data)) = sub2 (sub1 s.data) :=
    sub2Go_eq_of_noMatch _ _ h2w
  show String.mk (sub2 (sub1 (sub2 (sub1 s.data)))) = String.mk (sub2 (sub1 s.data))
  rw [e1, e2]

end Workstation
